import Mathlib

/-! # SmartOps task board: team assignment, completion and reconciliation

A shallow embedding of `src/smartops/app.js`: the task list, `createTask`,
`markTaskAsCompleted`, `assignPendingTasksToAvailableTeams`, `normalizeTask` and
`reconcileAssignments`, followed by theorems about them.

Conventions of the embedding.

* The global `tasks` array is a `List Task`, head = index 0. Task objects are mutated in
  place in the source; here an object is identified with its position in the list.
* `generateTaskId()` and `new Date().toISOString()` read the environment; their results are
  passed to the operations as explicit arguments (`newId`, `now`).
* Rendering, persistence (`persistAndRefresh`, `saveTasksToStorage`) and timers do not
  change the task list and are left out.
-/

namespace SmartOps

/-! ## Values -/

/-- A JavaScript value as the program can observe it: the field of a record parsed from
JSON (`undefined` = the property is absent), or a value the program made itself.
A number is carried by the text that `String(n)` gives (so `0` and `-0` are one value);
an array or object is carried by its reference and by the text `String(v)` gives.
The program only ever applies `??`, `===`, truthiness, `Set.has` and `String(...)` to
such a value. -/
inductive JsVal where
  | undefined
  | null
  | bool (b : Bool)
  | num (text : String)
  | str (s : String)
  | obj (ref : Nat) (text : String)
  deriving DecidableEq, Repr

namespace JsVal

/-- The test `v == null` that the operator `??` performs on its left operand. -/
def isNullish : JsVal → Bool
  | undefined => true
  | null => true
  | _ => false

/-- The operator `a ?? b`. -/
def orElse (a b : JsVal) : JsVal :=
  if a.isNullish then b else a

/-- Truthiness (`ToBoolean`), as used by `if (!v)` and `a && b`. -/
def truthy : JsVal → Bool
  | undefined => false
  | null => false
  | bool b => b
  | num text => text != "0" && text != "NaN"
  | str s => s != ""
  | obj _ _ => true

/-- The conversion `String(v)`. -/
def toJsString : JsVal → String
  | undefined => "undefined"
  | null => "null"
  | bool true => "true"
  | bool false => "false"
  | num text => text
  | str s => s
  | obj _ text => text

/-- The comparison `a === b` (and the `SameValueZero` of `includes` and `Set.has`):
same type and same value, objects by reference. -/
def strictEq (a b : JsVal) : Bool :=
  decide (a = b)

/-- The text of a number is that of a finite number: not `Infinity`, `-Infinity` or `NaN`. -/
def isFiniteText (text : String) : Bool :=
  text != "Infinity" && text != "-Infinity" && text != "NaN"

/-- What `JSON.parse` reads back for a property that `JSON.stringify` wrote: a property
that is `undefined` is left out, so it reads as `undefined` again; a number that is not
finite is written as `null`; the other primitive values come back as they are. The result
is `none` for an array or object, whose content this model does not carry. -/
def written : JsVal → Option JsVal
  | undefined => some undefined
  | null => some null
  | bool b => some (bool b)
  | num text => if isFiniteText text then some (num text) else some null
  | str s => some (str s)
  | obj _ _ => none

/-- A string, a boolean or a finite number. -/
def isScalar : JsVal → Bool
  | bool _ => true
  | num text => isFiniteText text
  | str _ => true
  | _ => false

end JsVal

/-! ## Data model -/

/-- The three values of `STATUS`. Every task the program builds (`createTask`,
`normalizeTask`) carries one of them. -/
inductive Status where
  | pending
  | in_progress
  | completed
  deriving DecidableEq, Repr

/-- The string of a status, `STATUS.PENDING` etc. -/
def Status.toString : Status → String
  | .pending => "pending"
  | .in_progress => "in_progress"
  | .completed => "completed"

/-- A task object, with the seven fields `createTask` and `normalizeTask` give it. -/
structure Task where
  id : JsVal
  title : String
  status : Status
  assignedTeam : JsVal
  source : String
  createdAt : JsVal
  completedAt : JsVal
  deriving DecidableEq, Repr

/-- The constant `TEAMS`. -/
def TEAMS : List String := ["Equipo A", "Equipo B", "Equipo C"]

/-! ## Team assignment on creation -/

/-- The callback of `tasks.some(...)` in `getAvailableTeam` and `isTeamAvailable`:
`task.assignedTeam === team && task.status === STATUS.IN_PROGRESS`. -/
def holdsTeam (team : String) (task : Task) : Bool :=
  JsVal.strictEq task.assignedTeam (.str team) && decide (task.status = .in_progress)

/-- The function `isTeamAvailable(team)`. -/
def isTeamAvailable (tasks : List Task) (team : String) : Bool :=
  !tasks.any (holdsTeam team)

/-- The loop of `getAvailableTeam` over a list of teams: the first team that is not busy,
`null` when the loop runs out. -/
def getAvailableTeamFrom (tasks : List Task) : List String → JsVal
  | [] => .null
  | team :: rest =>
    let isBusy := tasks.any (holdsTeam team)
    if !isBusy then .str team else getAvailableTeamFrom tasks rest

/-- The function `getAvailableTeam()`. -/
def getAvailableTeam (tasks : List Task) : JsVal :=
  getAvailableTeamFrom tasks TEAMS

/-- The function `assignTeamIfAvailable(task)`; returns the task after the mutation. -/
def assignTeamIfAvailable (tasks : List Task) (task : Task) : Task :=
  let availableTeam := getAvailableTeam tasks
  if !availableTeam.truthy then task
  else { task with assignedTeam := availableTeam, status := .in_progress }

/-- The function `createTask(title, source)`; `newId` is what `generateTaskId()` returned
and `now` what `new Date().toISOString()` returned. Returns the new `tasks`. -/
def createTask (tasks : List Task) (newId now title source : String) : List Task :=
  let newTask : Task :=
    { id := .str newId
      title := title
      status := .pending
      assignedTeam := .null
      source := source
      createdAt := .str now
      completedAt := .null }
  assignTeamIfAvailable tasks newTask :: tasks

/-! ## Completion and backfill -/

/-- The idiom `const x = list.find(p); ...; x.field = ...`: the first element that
satisfies `p` is mutated in place by `f`; nothing happens when `find` returns `undefined`. -/
def modifyFirst (p : Task → Bool) (f : Task → Task) : List Task → List Task
  | [] => []
  | x :: rest => if p x then f x :: rest else x :: modifyFirst p f rest

/-- The two assignments `pendingTask.status = STATUS.IN_PROGRESS;
pendingTask.assignedTeam = team`. -/
def promote (team : String) (task : Task) : Task :=
  { task with status := .in_progress, assignedTeam := .str team }

/-- One iteration of the loop of `assignPendingTasksToAvailableTeams`, for `team`:
skipped when the team is busy, otherwise the first pending task of
`tasks.slice().reverse()` is promoted (the copy is shallow: the task objects are shared
with `tasks`, whose order is unchanged). -/
def assignPendingToTeam (tasks : List Task) (team : String) : List Task :=
  if !isTeamAvailable tasks team then tasks
  else (modifyFirst (fun task => decide (task.status = .pending)) (promote team)
    tasks.reverse).reverse

/-- The function `assignPendingTasksToAvailableTeams()`. -/
def assignPendingTasksToAvailableTeams (tasks : List Task) : List Task :=
  TEAMS.foldl assignPendingToTeam tasks

/-- The two assignments `task.status = STATUS.COMPLETED;
task.completedAt = new Date().toISOString()`. -/
def complete (now : String) (task : Task) : Task :=
  { task with status := .completed, completedAt := .str now }

/-- The function `markTaskAsCompleted(taskId)`; `now` is what
`new Date().toISOString()` returned. Returns the new `tasks`. -/
def markTaskAsCompleted (tasks : List Task) (now : String) (taskId : JsVal) : List Task :=
  match tasks.find? (fun item => JsVal.strictEq item.id taskId) with
  | none => tasks
  | some task =>
    if task.status = .completed then tasks
    else
      assignPendingTasksToAvailableTeams
        (modifyFirst (fun item => JsVal.strictEq item.id taskId) (complete now) tasks)

/-! ## Sanitizing stored records -/

/-- What `normalizeTask` reads of `rawTask`: the seven properties `rawTask.id`, ...,
`rawTask.completedAt`, each `undefined` when the record does not have it. -/
structure RawTask where
  id : JsVal
  title : JsVal
  status : JsVal
  assignedTeam : JsVal
  source : JsVal
  createdAt : JsVal
  completedAt : JsVal
  deriving DecidableEq, Repr

/-- The list `Object.values(STATUS)`. -/
def statusValues : List Status := [.pending, .in_progress, .completed]

/-- The expression
`Object.values(STATUS).includes(rawTask.status) ? rawTask.status : STATUS.PENDING`. -/
def normalizeStatus (v : JsVal) : Status :=
  match statusValues.find? (fun s => JsVal.strictEq (.str s.toString) v) with
  | some s => s
  | none => .pending

/-- The function `normalizeTask(rawTask)`; `newId` and `now` are what `generateTaskId()`
and `new Date().toISOString()` would return. -/
def normalizeTask (rawTask : RawTask) (newId now : String) : Task :=
  { id := rawTask.id.orElse (.str newId)
    title := (rawTask.title.orElse (.str "Tarea sin título")).toJsString
    status := normalizeStatus rawTask.status
    assignedTeam := rawTask.assignedTeam.orElse .null
    source := if JsVal.strictEq rawTask.source (.str "auto") then "auto" else "manual"
    createdAt := rawTask.createdAt.orElse (.str now)
    completedAt := rawTask.completedAt.orElse .null }

/-- The task object read as a record: the values of its seven properties, in memory. -/
def Task.toRaw (task : Task) : RawTask :=
  { id := task.id
    title := .str task.title
    status := .str task.status.toString
    assignedTeam := task.assignedTeam
    source := .str task.source
    createdAt := task.createdAt
    completedAt := task.completedAt }

/-- The record that `JSON.parse` reads back from what `saveTasksToStorage` writes for a
task with `JSON.stringify`: each of the seven properties as `JsVal.written` gives it; `none`
when a property is an array or object. -/
def Task.toRecord (task : Task) : Option RawTask :=
  match task.id.written, task.assignedTeam.written, task.createdAt.written,
      task.completedAt.written with
  | some id, some assignedTeam, some createdAt, some completedAt =>
    some
      { id := id
        title := .str task.title
        status := .str task.status.toString
        assignedTeam := assignedTeam
        source := .str task.source
        createdAt := createdAt
        completedAt := completedAt }
  | _, _, _, _ => none

/-! ## Reconciliation after a reload -/

/-- The first loop of `reconcileAssignments`, from a given `assignedTeams` set (a list,
`Set.add` = cons, `Set.has` = membership): returns the set and the tasks after the loop. -/
def reconcileCollect : List JsVal → List Task → List JsVal × List Task
  | assignedTeams, [] => (assignedTeams, [])
  | assignedTeams, task :: rest =>
    if decide (task.status = .in_progress) && task.assignedTeam.truthy then
      let r := reconcileCollect (task.assignedTeam :: assignedTeams) rest
      (r.1, task :: r.2)
    else if task.status ≠ .in_progress then
      let r := reconcileCollect assignedTeams rest
      (r.1, { task with
                assignedTeam := if task.status = .pending then .null else task.assignedTeam }
              :: r.2)
    else
      let r := reconcileCollect assignedTeams rest
      (r.1, task :: r.2)

/-- The second loop of `reconcileAssignments`: `continue` on a task that is not pending,
`break` when `TEAMS.find(...)` finds no team outside the set. -/
def reconcileAssign : List JsVal → List Task → List Task
  | _, [] => []
  | assignedTeams, task :: rest =>
    if task.status ≠ .pending then task :: reconcileAssign assignedTeams rest
    else
      match TEAMS.find? (fun team => !assignedTeams.contains (.str team)) with
      | none => task :: rest
      | some availableTeam =>
        if !(JsVal.str availableTeam).truthy then task :: rest
        else
          promote availableTeam task
            :: reconcileAssign (.str availableTeam :: assignedTeams) rest

/-- The function `reconcileAssignments()` (without the final write to storage). -/
def reconcileAssignments (tasks : List Task) : List Task :=
  let r := reconcileCollect [] tasks
  reconcileAssign r.1 r.2

/-! ## The two commands as a step relation -/

/-- The two commands the presentation layer sends: create a task, complete a task. -/
inductive Step where
  | create (newId now title source : String)
  | complete (now : String) (taskId : JsVal)
  deriving DecidableEq, Repr

/-- One command applied to the task list. -/
def step (tasks : List Task) : Step → List Task
  | .create newId now title source => createTask tasks newId now title source
  | .complete now taskId => markTaskAsCompleted tasks now taskId

/-- A sequence of commands applied in order. -/
def run (tasks : List Task) (steps : List Step) : List Task :=
  steps.foldl step tasks

/-! ## Predicates of the specification -/

/-- No two tasks with status `in_progress` have the same `assignedTeam`. -/
def NoSharedTeam (tasks : List Task) : Prop :=
  tasks.Pairwise (fun a b =>
    ¬ (a.status = .in_progress ∧ b.status = .in_progress ∧ a.assignedTeam = b.assignedTeam))

instance (tasks : List Task) : Decidable (NoSharedTeam tasks) :=
  inferInstanceAs (Decidable (List.Pairwise _ tasks))

/-- A team is free: no `in_progress` task of the list references it. -/
def TeamFree (tasks : List Task) (team : String) : Prop :=
  ∀ t ∈ tasks, ¬ (t.status = .in_progress ∧ t.assignedTeam = .str team)

/-- The test "`task` is `in_progress` and its `assignedTeam` is `v`". -/
def holdsValue (v : JsVal) (task : Task) : Bool :=
  decide (task.status = .in_progress ∧ task.assignedTeam = v)

/-- The assignment of a task agrees with its status: a pending task has no team, a task in
progress has a team of `TEAMS`, and any task has no team or a team of `TEAMS`. -/
def TeamMatchesStatus (task : Task) : Prop :=
  (task.status = .pending → task.assignedTeam = .null) ∧
  (task.status = .in_progress → ∃ team ∈ TEAMS, task.assignedTeam = .str team) ∧
  (task.assignedTeam = .null ∨ ∃ team ∈ TEAMS, task.assignedTeam = .str team)

/-- The position of a status in the state machine pending, in_progress, completed. -/
def Status.rank : Status → Nat
  | .pending => 0
  | .in_progress => 1
  | .completed => 2

/-- What one command may do to one task: the id stays, the status does not move backwards,
a completed task is left as it is, and a task becomes completed only by the command
`markTaskAsCompleted` of its id. -/
def StepAllows (s : Step) (a b : Task) : Prop :=
  a.id = b.id ∧ a.status.rank ≤ b.status.rank ∧ (a.status = .completed → b = a) ∧
  (a.status ≠ .completed → b.status = .completed → ∃ now, s = .complete now a.id)

/-- A well-formed task record: id present, title a string, status one of the three status
strings, assignedTeam a team name or null, source "manual" or "auto", createdAt present,
completedAt a timestamp or null. -/
def WellFormed (r : RawTask) : Prop :=
  r.id.isNullish = false ∧
  (∃ title : String, r.title = .str title) ∧
  (∃ status : Status, r.status = .str status.toString) ∧
  (r.assignedTeam = .null ∨ ∃ team : String, r.assignedTeam = .str team) ∧
  (r.source = .str "manual" ∨ r.source = .str "auto") ∧
  r.createdAt.isNullish = false ∧
  (r.completedAt = .null ∨ ∃ timestamp : String, r.completedAt = .str timestamp)

/-- A string with no character other than white space (the empty string included). -/
def isBlank (s : String) : Bool :=
  s.data.all Char.isWhitespace

/-- Work conservation: if some task of the list is pending, every team of `TEAMS` is held by
an `in_progress` task of the list. -/
def WorkConserving (tasks : List Task) : Prop :=
  (∃ waiting ∈ tasks, waiting.status = .pending) →
    ∀ team ∈ TEAMS, ∃ holder ∈ tasks,
      holder.status = .in_progress ∧ holder.assignedTeam = .str team

/-! ## Concrete task lists and records -/

/-- The scenario of the specification: four manual tasks T1..T4 created in a row. -/
def scenarioSteps : List Step :=
  [.create "id-1" "2025-01-01T10:01:00.000Z" "T1" "manual",
   .create "id-2" "2025-01-01T10:02:00.000Z" "T2" "manual",
   .create "id-3" "2025-01-01T10:03:00.000Z" "T3" "manual",
   .create "id-4" "2025-01-01T10:04:00.000Z" "T4" "manual"]

/-- A task as `createTask` builds it, for the scenarios. -/
def mkTask (n : String) (status : Status) (team : JsVal) : Task :=
  { id := .str ("id-" ++ n)
    title := "T" ++ n
    status := status
    assignedTeam := team
    source := "manual"
    createdAt := .str ("2025-01-01T10:0" ++ n ++ ":00.000Z")
    completedAt := .null }

/-- The task list after the scenario `scenarioSteps`: T4 pending, T3 on C, T2 on B, T1 on A. -/
def scenarioTasks : List Task :=
  [mkTask "4" .pending .null, mkTask "3" .in_progress (.str "Equipo C"),
   mkTask "2" .in_progress (.str "Equipo B"), mkTask "1" .in_progress (.str "Equipo A")]

/-- A loaded list, most recent first: a pending task created at 10:03, a task in progress
on Equipo B created at 10:02, a pending task created at 10:01. -/
def reloadedTasks : List Task :=
  [mkTask "3" .pending .null, mkTask "2" .in_progress (.str "Equipo B"),
   mkTask "1" .pending .null]

/-- A loaded list of four pending tasks, most recent first. -/
def reloadedPending : List Task :=
  [mkTask "4" .pending .null, mkTask "3" .pending .null, mkTask "2" .pending .null,
   mkTask "1" .pending .null]

/-- Two stored records, both `in_progress` on Equipo A. -/
def duplicatedRecords : List RawTask :=
  [{ id := .str "id-2", title := .str "T2", status := .str "in_progress",
     assignedTeam := .str "Equipo A", source := .str "manual",
     createdAt := .str "2025-01-01T10:02:00.000Z", completedAt := .null },
   { id := .str "id-1", title := .str "T1", status := .str "in_progress",
     assignedTeam := .str "Equipo A", source := .str "manual",
     createdAt := .str "2025-01-01T10:01:00.000Z", completedAt := .null }]

/-- A stored record of a task in progress on Equipo B. -/
def storedRecord : RawTask :=
  { id := .str "id-2"
    title := .str "T2"
    status := .str "in_progress"
    assignedTeam := .str "Equipo B"
    source := .str "auto"
    createdAt := .str "2025-01-01T10:02:00.000Z"
    completedAt := .null }

/-- A stored record whose id is the number `1e400`, which `JSON.parse` reads as
`Infinity`. -/
def overflowIdRecord : RawTask :=
  { storedRecord with id := .num "Infinity" }

/-- A stored record whose title is the empty string. -/
def blankTitleRecord : RawTask :=
  { storedRecord with title := .str "" }

/-- A stored record without a title. -/
def untitledRecord : RawTask :=
  { storedRecord with title := .undefined }

/-! ## Creation (C1) -/

theorem holdsTeam_iff (team : String) (t : Task) :
    holdsTeam team t = true ↔ t.status = .in_progress ∧ t.assignedTeam = .str team := by
  simp [holdsTeam, JsVal.strictEq, and_comm]

theorem isTeamAvailable_iff (tasks : List Task) (team : String) :
    isTeamAvailable tasks team = true ↔ TeamFree tasks team := by
  simp [isTeamAvailable, TeamFree, holdsTeam_iff]

theorem any_holdsTeam_iff (tasks : List Task) (team : String) :
    tasks.any (holdsTeam team) = false ↔ TeamFree tasks team := by
  rw [← isTeamAvailable_iff]; simp [isTeamAvailable]

theorem getAvailableTeamFrom_eq_str (tasks : List Task) (teams : List String) :
    ∀ (i : Nat) (team : String), teams[i]? = some team → TeamFree tasks team →
      (∀ (j : Nat) (other : String), j < i → teams[j]? = some other → ¬ TeamFree tasks other) →
      getAvailableTeamFrom tasks teams = .str team := by
  induction teams with
  | nil => intro i team h; simp at h
  | cons head rest ih =>
    intro i team hi hfree hlow
    cases i with
    | zero =>
      simp at hi; subst hi
      simp [getAvailableTeamFrom, (any_holdsTeam_iff tasks head).mpr hfree]
    | succ k =>
      have hbusy : ¬ TeamFree tasks head := hlow 0 head (Nat.succ_pos k) (by simp)
      have hany : tasks.any (holdsTeam head) = true := by
        cases h : tasks.any (holdsTeam head) with
        | true => rfl
        | false => exact absurd ((any_holdsTeam_iff tasks head).mp h) hbusy
      simp only [getAvailableTeamFrom, hany]
      simp at hi
      exact ih k team hi hfree (fun j other hj hjo => hlow (j + 1) other (by omega) (by simpa using hjo))

theorem getAvailableTeamFrom_eq_null (tasks : List Task) (teams : List String)
    (hbusy : ∀ team ∈ teams, ¬ TeamFree tasks team) :
    getAvailableTeamFrom tasks teams = .null := by
  induction teams with
  | nil => rfl
  | cons head rest ih =>
    have hany : tasks.any (holdsTeam head) = true := by
      cases h : tasks.any (holdsTeam head) with
      | true => rfl
      | false => exact absurd ((any_holdsTeam_iff tasks head).mp h) (hbusy head (by simp))
    simp only [getAvailableTeamFrom, hany]
    exact ih (fun team hm => hbusy team (List.mem_cons_of_mem _ hm))

theorem teams_truthy (team : String) (h : team ∈ TEAMS) : (JsVal.str team).truthy = true := by
  simp [TEAMS] at h
  rcases h with h | h | h <;> subst h <;> decide

/-- C1: for every task list, title and source, `createTask` yields `newTask :: oldList`
(the old tasks unchanged, in the same order), where `newTask` has the given title and source
and `completedAt = null`; if some team of `TEAMS` is free in the old list, `newTask` is
`in_progress` on the lowest-index free team, and if no team is free it is `pending` with
`assignedTeam = null`. -/
theorem createTask_spec (tasks : List Task) (newId now title source : String) :
    ∃ newTask : Task,
      createTask tasks newId now title source = newTask :: tasks ∧
      newTask.title = title ∧ newTask.source = source ∧ newTask.completedAt = .null ∧
      (∀ (i : Nat) (team : String), TEAMS[i]? = some team → TeamFree tasks team →
          (∀ (j : Nat) (other : String), j < i → TEAMS[j]? = some other →
            ¬ TeamFree tasks other) →
          newTask.status = .in_progress ∧ newTask.assignedTeam = .str team) ∧
      ((∀ team ∈ TEAMS, ¬ TeamFree tasks team) →
          newTask.status = .pending ∧ newTask.assignedTeam = .null) := by
  refine ⟨_, rfl, ?_, ?_, ?_, ?_, ?_⟩
  · simp only [assignTeamIfAvailable]; split <;> rfl
  · simp only [assignTeamIfAvailable]; split <;> rfl
  · simp only [assignTeamIfAvailable]; split <;> rfl
  · intro i team hi hfree hlow
    have hmem : team ∈ TEAMS := List.mem_iff_getElem?.mpr ⟨i, hi⟩
    have hget := getAvailableTeamFrom_eq_str tasks TEAMS i team hi hfree hlow
    simp [assignTeamIfAvailable, getAvailableTeam, hget, teams_truthy team hmem]
  · intro hbusy
    have hget := getAvailableTeamFrom_eq_null tasks TEAMS hbusy
    simp [assignTeamIfAvailable, getAvailableTeam, hget, JsVal.truthy]

/-- The scenario of C1: from the empty list, creating T1..T4 gives the list T4, T3, T2, T1
with T1 on Equipo A, T2 on Equipo B, T3 on Equipo C, all in progress, and T4 pending and
unassigned. -/
theorem createTask_scenario :
    (run [] scenarioSteps).map (fun t => (t.title, t.status, t.assignedTeam)) =
      [("T4", .pending, .null), ("T3", .in_progress, .str "Equipo C"),
       ("T2", .in_progress, .str "Equipo B"), ("T1", .in_progress, .str "Equipo A")] := by
  decide

/-! ## No shared team (C2) -/

theorem noSharedTeam_iff_countP (tasks : List Task) :
    NoSharedTeam tasks ↔ ∀ v, tasks.countP (holdsValue v) ≤ 1 := by
  unfold NoSharedTeam
  induction tasks with
  | nil => simp
  | cons a l ih =>
    rw [List.pairwise_cons, ih]
    constructor
    · rintro ⟨ha, hl⟩ v
      rw [List.countP_cons]
      by_cases hav : holdsValue v a = true
      · have hzero : l.countP (holdsValue v) = 0 := by
          rw [List.countP_eq_zero]
          intro b hb hbv
          simp only [holdsValue, decide_eq_true_eq] at hav hbv
          exact ha b hb ⟨hav.1, hbv.1, hav.2.trans hbv.2.symm⟩
        simp [hzero, hav]
      · have := hl v
        simp [hav]; exact this
    · intro h
      refine ⟨?_, fun v => ?_⟩
      · rintro b hb ⟨hsa, hsb, hab⟩
        have h2 := h a.assignedTeam
        rw [List.countP_cons] at h2
        have hpos : 0 < l.countP (holdsValue a.assignedTeam) :=
          List.countP_pos_iff.mpr ⟨b, hb, by simp [holdsValue, hsb, hab]⟩
        have ha : holdsValue a.assignedTeam a = true := by simp [holdsValue, hsa]
        rw [if_pos ha] at h2
        omega
      · have h2 := h v
        rw [List.countP_cons] at h2
        omega

theorem countP_modifyFirst_le_succ (q p : Task → Bool) (f : Task → Task) (l : List Task) :
    (modifyFirst p f l).countP q ≤ l.countP q + 1 := by
  induction l with
  | nil => simp [modifyFirst]
  | cons x rest ih =>
    simp only [modifyFirst]
    split
    · simp only [List.countP_cons]; split <;> omega
    · simp only [List.countP_cons]; omega

theorem countP_modifyFirst_le (q p : Task → Bool) (f : Task → Task) (l : List Task)
    (h : ∀ x, p x = true → q (f x) = true → q x = true) :
    (modifyFirst p f l).countP q ≤ l.countP q := by
  induction l with
  | nil => simp [modifyFirst]
  | cons x rest ih =>
    simp only [modifyFirst]
    split
    · rename_i hp
      simp only [List.countP_cons]
      by_cases hq : q (f x) = true
      · simp [hq, h x hp hq]
      · simp [hq]
    · simp only [List.countP_cons]; omega

theorem countP_holdsValue_assignPendingToTeam (tasks : List Task) (team : String)
    (h : ∀ v, tasks.countP (holdsValue v) ≤ 1) (v : JsVal) :
    (assignPendingToTeam tasks team).countP (holdsValue v) ≤ 1 := by
  unfold assignPendingToTeam
  split
  · exact h v
  · rename_i hav
    rw [List.countP_reverse]
    by_cases hv : v = .str team
    · subst hv
      have hzero : tasks.countP (holdsValue (.str team)) = 0 := by
        rw [List.countP_eq_zero]
        intro b hb hbv
        simp only [Bool.not_eq_true, Bool.not_eq_false', isTeamAvailable,
          Bool.not_eq_true', List.any_eq_false] at hav
        have hnot := hav b hb
        simp only [holdsValue, decide_eq_true_eq] at hbv
        simp [holdsTeam, JsVal.strictEq, hbv.1, hbv.2] at hnot
      have := countP_modifyFirst_le_succ (holdsValue (.str team))
        (fun task => decide (task.status = .pending)) (promote team) tasks.reverse
      rw [List.countP_reverse, hzero] at this
      exact this
    · have := countP_modifyFirst_le (holdsValue v)
        (fun task => decide (task.status = .pending)) (promote team) tasks.reverse
        (fun x _ hq => by
          simp only [holdsValue, promote, decide_eq_true_eq] at hq
          exact absurd hq.2.symm hv)
      rw [List.countP_reverse] at this
      exact le_trans this (h v)

theorem noSharedTeam_assignPending (tasks : List Task) (h : NoSharedTeam tasks) :
    NoSharedTeam (assignPendingTasksToAvailableTeams tasks) := by
  unfold assignPendingTasksToAvailableTeams
  generalize TEAMS = teams
  induction teams generalizing tasks with
  | nil => exact h
  | cons team rest ih =>
    rw [List.foldl_cons]
    apply ih
    rw [noSharedTeam_iff_countP] at h ⊢
    exact countP_holdsValue_assignPendingToTeam tasks team h

theorem getAvailableTeamFrom_ne_held (tasks : List Task) (teams : List String) (b : Task)
    (hb : b ∈ tasks) (hsb : b.status = .in_progress)
    (htr : (getAvailableTeamFrom tasks teams).truthy = true) :
    getAvailableTeamFrom tasks teams ≠ b.assignedTeam := by
  induction teams with
  | nil => simp [getAvailableTeamFrom, JsVal.truthy] at htr
  | cons team rest ih =>
    simp only [getAvailableTeamFrom] at htr ⊢
    split
    · rename_i hnb
      simp only [Bool.not_eq_true', List.any_eq_false] at hnb
      intro hget
      have hnot := hnb b hb
      simp [holdsTeam, JsVal.strictEq, hsb, ← hget] at hnot
    · rename_i hnb
      rw [if_neg hnb] at htr
      exact ih htr

theorem noSharedTeam_createTask (tasks : List Task) (newId now title source : String)
    (h : NoSharedTeam tasks) : NoSharedTeam (createTask tasks newId now title source) := by
  unfold NoSharedTeam at h ⊢
  unfold createTask
  rw [List.pairwise_cons]
  refine ⟨?_, h⟩
  rintro b hb ⟨hsa, hsb, hab⟩
  by_cases htr : (getAvailableTeam tasks).truthy = true
  · simp only [assignTeamIfAvailable, htr, Bool.not_true, Bool.false_eq_true, if_false] at hab
    exact getAvailableTeamFrom_ne_held tasks TEAMS b hb hsb htr hab
  · simp [assignTeamIfAvailable, htr] at hsa

theorem noSharedTeam_markTaskAsCompleted (tasks : List Task) (now : String) (taskId : JsVal)
    (h : NoSharedTeam tasks) : NoSharedTeam (markTaskAsCompleted tasks now taskId) := by
  unfold markTaskAsCompleted
  split
  · exact h
  · split
    · exact h
    · apply noSharedTeam_assignPending
      rw [noSharedTeam_iff_countP] at h ⊢
      intro v
      refine le_trans (countP_modifyFirst_le _ _ _ _ ?_) (h v)
      intro x _ hq
      simp [holdsValue, complete] at hq

theorem noSharedTeam_step (tasks : List Task) (s : Step) (h : NoSharedTeam tasks) :
    NoSharedTeam (step tasks s) := by
  cases s with
  | create newId now title source =>
    exact noSharedTeam_createTask tasks newId now title source h
  | complete now taskId => exact noSharedTeam_markTaskAsCompleted tasks now taskId h

theorem noSharedTeam_foldl_step (steps : List Step) :
    ∀ (tasks : List Task), NoSharedTeam tasks → NoSharedTeam (steps.foldl step tasks) := by
  induction steps with
  | nil => intro tasks h; exact h
  | cons s rest ih =>
    intro tasks h
    rw [List.foldl_cons]
    exact ih _ (noSharedTeam_step tasks s h)

/-- C2: in every task list reachable from the empty list by a sequence of `createTask` and
`markTaskAsCompleted` calls, no two `in_progress` tasks have the same `assignedTeam`; and
the predicate is preserved by every such sequence (so by each single call) from any list
that satisfies it. -/
theorem noSharedTeam_run (tasks : List Task) (steps : List Step) :
    NoSharedTeam (run [] steps) ∧
      (NoSharedTeam tasks → NoSharedTeam (run tasks steps)) :=
  ⟨noSharedTeam_foldl_step steps [] List.Pairwise.nil, noSharedTeam_foldl_step steps tasks⟩

/-- Witness of C2: the list after the scenario T1..T4 has no shared team, and neither has
the list after the completion of T1 and the creation of a fifth task from there. -/
theorem noSharedTeam_run_witness :
    NoSharedTeam scenarioTasks ∧
      NoSharedTeam (run scenarioTasks
        [.complete "2025-01-01T11:00:00.000Z" (.str "id-1"),
         .create "id-5" "2025-01-01T11:05:00.000Z" "T5" "manual"]) :=
  ⟨by decide, (noSharedTeam_run scenarioTasks _).2 (by decide)⟩

/-! ## Completion is a no-op on unknown and completed tasks (C4) -/

theorem forall₂_modifyFirst (R : Task → Task → Prop) (p : Task → Bool) (f : Task → Task)
    (hrefl : ∀ a, R a a) (l : List Task) (hf : ∀ x, l.find? p = some x → R x (f x)) :
    List.Forall₂ R l (modifyFirst p f l) := by
  induction l with
  | nil => exact List.Forall₂.nil
  | cons x rest ih =>
    simp only [modifyFirst]
    cases hpx : p x with
    | true =>
      simp only [if_true]
      exact List.Forall₂.cons (hf x (by simp [List.find?_cons, hpx]))
        (List.forall₂_same.mpr (fun a _ => hrefl a))
    | false =>
      simp only [Bool.false_eq_true, if_false]
      exact List.Forall₂.cons (hrefl x)
        (ih (fun y hy => hf y (by simpa [List.find?_cons, hpx] using hy)))

theorem forall₂_assignPendingToTeam (R : Task → Task → Prop) (hrefl : ∀ a, R a a)
    (tasks : List Task) (team : String)
    (hf : ∀ a, a.status = .pending → R a (promote team a)) :
    List.Forall₂ R tasks (assignPendingToTeam tasks team) := by
  unfold assignPendingToTeam
  split
  · exact List.forall₂_same.mpr (fun a _ => hrefl a)
  · have h := forall₂_modifyFirst R (fun task => decide (task.status = .pending))
      (promote team) hrefl tasks.reverse
      (fun a ha => hf a (by simpa using List.find?_some ha))
    have h2 := List.forall₂_reverse_iff.mpr h
    rwa [List.reverse_reverse] at h2

theorem forall₂_trans_of (R : Task → Task → Prop) (htrans : ∀ a b c, R a b → R b c → R a c) :
    ∀ (l₁ l₂ l₃ : List Task), List.Forall₂ R l₁ l₂ → List.Forall₂ R l₂ l₃ →
      List.Forall₂ R l₁ l₃ := by
  intro l₁ l₂ l₃ h12
  induction h12 generalizing l₃ with
  | nil => intro h; cases h; exact List.Forall₂.nil
  | cons hab _ ih =>
    intro h
    cases h with
    | cons hbc hrest => exact List.Forall₂.cons (htrans _ _ _ hab hbc) (ih _ hrest)

theorem forall₂_foldl_assignPendingToTeam (R : Task → Task → Prop) (hrefl : ∀ a, R a a)
    (htrans : ∀ a b c, R a b → R b c → R a c) (teams : List String)
    (hf : ∀ team ∈ teams, ∀ a, a.status = .pending → R a (promote team a))
    (tasks : List Task) : List.Forall₂ R tasks (teams.foldl assignPendingToTeam tasks) := by
  induction teams generalizing tasks with
  | nil => exact List.forall₂_same.mpr (fun a _ => hrefl a)
  | cons team rest ih =>
    rw [List.foldl_cons]
    have h1 := forall₂_assignPendingToTeam R hrefl tasks team (hf team (by simp))
    have h2 := ih (fun x hx => hf x (List.mem_cons_of_mem _ hx)) (assignPendingToTeam tasks team)
    exact forall₂_trans_of R htrans _ _ _ h1 h2

theorem forall₂_assignPending (R : Task → Task → Prop) (hrefl : ∀ a, R a a)
    (htrans : ∀ a b c, R a b → R b c → R a c)
    (hf : ∀ team ∈ TEAMS, ∀ a, a.status = .pending → R a (promote team a))
    (tasks : List Task) :
    List.Forall₂ R tasks (assignPendingTasksToAvailableTeams tasks) :=
  forall₂_foldl_assignPendingToTeam R hrefl htrans TEAMS hf tasks

theorem forall₂_markTaskAsCompleted (R : Task → Task → Prop) (hrefl : ∀ a, R a a)
    (htrans : ∀ a b c, R a b → R b c → R a c) (now : String) (taskId : JsVal)
    (hc : ∀ a, a.id = taskId → a.status ≠ .completed → R a (complete now a))
    (hf : ∀ team ∈ TEAMS, ∀ a, a.status = .pending → R a (promote team a))
    (tasks : List Task) : List.Forall₂ R tasks (markTaskAsCompleted tasks now taskId) := by
  unfold markTaskAsCompleted
  split
  · exact List.forall₂_same.mpr (fun a _ => hrefl a)
  · rename_i task hfind
    split
    · exact List.forall₂_same.mpr (fun a _ => hrefl a)
    · rename_i hnot
      refine forall₂_trans_of R htrans _ _ _ ?_ (forall₂_assignPending R hrefl htrans hf _)
      apply forall₂_modifyFirst R _ _ hrefl
      intro x hx
      rw [hfind] at hx
      simp only [Option.some.injEq] at hx
      subst hx
      have hid := List.find?_some hfind
      exact hc _ (by simpa [JsVal.strictEq] using hid) hnot

theorem find?_forall₂ (R : Task → Task → Prop) (p : Task → Bool)
    (hp : ∀ a b, R a b → p a = p b) (l₁ l₂ : List Task) (h : List.Forall₂ R l₁ l₂) :
    ∀ a, l₁.find? p = some a → ∃ b, l₂.find? p = some b ∧ R a b := by
  induction h with
  | nil => intro a ha; simp at ha
  | @cons x y _ _ hab _ ih =>
    intro a ha
    rw [List.find?_cons] at ha ⊢
    rw [← hp x y hab]
    cases hpx : p x with
    | true =>
      rw [hpx] at ha
      simp only [Option.some.injEq] at ha
      subst ha
      exact ⟨y, rfl, hab⟩
    | false =>
      rw [hpx] at ha
      exact ih a ha

theorem find?_modifyFirst (p : Task → Bool) (f : Task → Task) (hpf : ∀ x, p x = true → p (f x) = true)
    (l : List Task) : (modifyFirst p f l).find? p = (l.find? p).map f := by
  induction l with
  | nil => rfl
  | cons x rest ih =>
    simp only [modifyFirst]
    cases hpx : p x with
    | true => simp [List.find?_cons, hpx, hpf x hpx]
    | false => simp [List.find?_cons, hpx, ih]

theorem modifyFirst_eq_self_of_find?_none (p : Task → Bool) (f : Task → Task) (l : List Task)
    (h : l.find? p = none) : modifyFirst p f l = l := by
  induction l with
  | nil => rfl
  | cons x rest ih =>
    rw [List.find?_cons] at h
    cases hpx : p x with
    | true => simp [hpx] at h
    | false =>
      rw [hpx] at h
      simp [modifyFirst, hpx, ih h]

/-- C4: `markTaskAsCompleted(taskId)` leaves the task list unchanged when no task has the id
`taskId`, and when the task found for `taskId` is already completed; and for every task list
and id, calling it twice in a row with the same id gives the same list as calling it once. -/
theorem markTaskAsCompleted_idempotent (tasks : List Task) (now now2 : String) (taskId : JsVal) :
    ((∀ t ∈ tasks, t.id ≠ taskId) → markTaskAsCompleted tasks now taskId = tasks) ∧
    (∀ task, tasks.find? (fun item => decide (item.id = taskId)) = some task →
      task.status = .completed → markTaskAsCompleted tasks now taskId = tasks) ∧
    markTaskAsCompleted (markTaskAsCompleted tasks now taskId) now2 taskId =
      markTaskAsCompleted tasks now taskId := by
  refine ⟨?_, ?_, ?_⟩
  · intro hno
    have hnone : tasks.find? (fun item => JsVal.strictEq item.id taskId) = none := by
      rw [List.find?_eq_none]
      intro x hx
      simpa [JsVal.strictEq] using hno x hx
    simp [markTaskAsCompleted, hnone]
  · intro task hfind hdone
    have hfind2 : tasks.find? (fun item => JsVal.strictEq item.id taskId) = some task := hfind
    simp [markTaskAsCompleted, hfind2, hdone]
  · cases hfind : tasks.find? (fun item => JsVal.strictEq item.id taskId) with
    | none =>
      have h1 : markTaskAsCompleted tasks now taskId = tasks := by
        simp [markTaskAsCompleted, hfind]
      rw [h1]
      simp [markTaskAsCompleted, hfind]
    | some task =>
      by_cases hdone : task.status = .completed
      · have h1 : markTaskAsCompleted tasks now taskId = tasks := by
          simp [markTaskAsCompleted, hfind, hdone]
        rw [h1]
        simp [markTaskAsCompleted, hfind, hdone]
      · have h1 : markTaskAsCompleted tasks now taskId =
            assignPendingTasksToAvailableTeams
              (modifyFirst (fun item => JsVal.strictEq item.id taskId) (complete now) tasks) := by
          simp [markTaskAsCompleted, hfind, hdone]
        rw [h1]
        have hmid := find?_modifyFirst (fun item => JsVal.strictEq item.id taskId) (complete now)
          (fun x hx => hx) tasks
        rw [hfind] at hmid
        have hrel := forall₂_assignPending
          (fun a b => a.id = b.id ∧ (a.status = .completed → b.status = .completed))
          (fun a => ⟨rfl, id⟩)
          (fun a b c hab hbc => ⟨hab.1.trans hbc.1, fun h => hbc.2 (hab.2 h)⟩)
          (fun team _ a ha => ⟨rfl, fun h => by rw [ha] at h; cases h⟩)
          (modifyFirst (fun item => JsVal.strictEq item.id taskId) (complete now) tasks)
        obtain ⟨b, hb, _, hbdone⟩ := find?_forall₂ _ (fun item => JsVal.strictEq item.id taskId)
          (fun a b hab => by simp [hab.1]) _ _ hrel _ hmid
        have hbc : b.status = .completed := hbdone rfl
        generalize assignPendingTasksToAvailableTeams
              (modifyFirst (fun item => JsVal.strictEq item.id taskId) (complete now) tasks) = L at hb ⊢
        simp [markTaskAsCompleted, hb, hbc]

/-- Witness of C4: after T1..T4, completing T1 a second time changes nothing. -/
theorem markTaskAsCompleted_idempotent_witness :
    markTaskAsCompleted
        (markTaskAsCompleted (run [] scenarioSteps) "2025-01-01T11:00:00.000Z" (.str "id-1"))
        "2025-01-01T12:00:00.000Z" (.str "id-1") =
      markTaskAsCompleted (run [] scenarioSteps) "2025-01-01T11:00:00.000Z" (.str "id-1") :=
  (markTaskAsCompleted_idempotent (run [] scenarioSteps) "2025-01-01T11:00:00.000Z"
    "2025-01-01T12:00:00.000Z" (.str "id-1")).2.2

/-! ## Completion backfills the freed team (C3) -/

theorem modifyFirst_eq_set (p : Task → Bool) (f : Task → Task) (l : List Task) :
    ∀ (i : Nat) (x : Task), l[i]? = some x → p x = true →
      (∀ (k : Nat) (y : Task), k < i → l[k]? = some y → p y = false) →
      modifyFirst p f l = l.set i (f x) := by
  induction l with
  | nil => intro i x h; simp at h
  | cons a rest ih =>
    intro i x hx hpx hbefore
    cases i with
    | zero =>
      simp at hx; subst hx
      simp [modifyFirst, hpx]
    | succ k =>
      have hpa : p a = false := hbefore 0 a (Nat.succ_pos k) (by simp)
      simp only [List.getElem?_cons_succ] at hx
      simp only [modifyFirst, hpa, Bool.false_eq_true, if_false, List.set_cons_succ]
      rw [ih k x hx hpx (fun m y hm hy => hbefore (m + 1) y (by omega) (by simpa using hy))]

theorem find?_eq_some_of_first (p : Task → Bool) (l : List Task) :
    ∀ (i : Nat) (x : Task), l[i]? = some x → p x = true →
      (∀ (k : Nat) (y : Task), k < i → l[k]? = some y → p y = false) →
      l.find? p = some x := by
  induction l with
  | nil => intro i x h; simp at h
  | cons a rest ih =>
    intro i x hx hpx hbefore
    cases i with
    | zero =>
      simp at hx; subst hx
      simp [List.find?_cons, hpx]
    | succ k =>
      have hpa : p a = false := hbefore 0 a (Nat.succ_pos k) (by simp)
      simp only [List.getElem?_cons_succ] at hx
      simp only [List.find?_cons, hpa]
      exact ih k x hx hpx (fun m y hm hy => hbefore (m + 1) y (by omega) (by simpa using hy))

theorem modifyFirst_append (p : Task → Bool) (f : Task → Task) (a b : List Task) :
    modifyFirst p f (a ++ b) =
      if a.any p then modifyFirst p f a ++ b else a ++ modifyFirst p f b := by
  induction a with
  | nil => simp [modifyFirst]
  | cons x rest ih =>
    cases hpx : p x with
    | true => simp [modifyFirst, hpx]
    | false =>
      rw [List.cons_append]
      simp only [modifyFirst, hpx, Bool.false_eq_true, if_false, ih, List.any_cons,
        Bool.false_or]
      split <;> simp

theorem modifyFirst_reverse_eq_set (p : Task → Bool) (f : Task → Task) (l : List Task) :
    ∀ (j : Nat) (x : Task), l[j]? = some x → p x = true →
      (∀ (k : Nat) (y : Task), j < k → l[k]? = some y → p y = false) →
      (modifyFirst p f l.reverse).reverse = l.set j (f x) := by
  induction l with
  | nil => intro j x h; simp at h
  | cons a rest ih =>
    intro j x hx hpx hafter
    rw [List.reverse_cons, modifyFirst_append]
    cases j with
    | zero =>
      simp at hx; subst hx
      have hnone : rest.reverse.any p = false := by
        rw [List.any_eq_false]
        intro y hy
        rw [List.mem_reverse, List.mem_iff_getElem?] at hy
        obtain ⟨n, hn⟩ := hy
        have := hafter (n + 1) y (Nat.succ_pos n) (by simpa using hn)
        simp [this]
      simp [hnone, modifyFirst, hpx]
    | succ k =>
      simp only [List.getElem?_cons_succ] at hx
      have hsome : rest.reverse.any p = true := by
        rw [List.any_eq_true]
        exact ⟨x, by rw [List.mem_reverse]; exact List.mem_iff_getElem?.mpr ⟨k, hx⟩, hpx⟩
      simp only [hsome, if_true, List.reverse_append, List.reverse_cons, List.reverse_nil,
        List.nil_append, List.singleton_append, List.set_cons_succ]
      rw [ih k x hx hpx (fun m y hm hy => hafter (m + 1) y (by omega) (by simpa using hy))]

theorem isTeamAvailable_eq_false_of_countP (tasks : List Task) (team : String)
    (h : 0 < tasks.countP (holdsTeam team)) : isTeamAvailable tasks team = false := by
  obtain ⟨a, ha, hp⟩ := List.countP_pos_iff.mp h
  simp only [isTeamAvailable, Bool.not_eq_false', List.any_eq_true]
  exact ⟨a, ha, hp⟩

theorem isTeamAvailable_eq_true_of_countP (tasks : List Task) (team : String)
    (h : tasks.countP (holdsTeam team) = 0) : isTeamAvailable tasks team = true := by
  rw [List.countP_eq_zero] at h
  simp only [isTeamAvailable, Bool.not_eq_true', List.any_eq_false]
  exact h

theorem assignPendingToTeam_busy (tasks : List Task) (team : String)
    (h : isTeamAvailable tasks team = false) : assignPendingToTeam tasks team = tasks := by
  simp [assignPendingToTeam, h]

theorem foldl_assignPendingToTeam_busy (teams : List String) (tasks : List Task)
    (h : ∀ team ∈ teams, isTeamAvailable tasks team = false) :
    teams.foldl assignPendingToTeam tasks = tasks := by
  induction teams with
  | nil => rfl
  | cons team rest ih =>
    rw [List.foldl_cons, assignPendingToTeam_busy tasks team (h team (by simp))]
    exact ih (fun x hx => h x (List.mem_cons_of_mem _ hx))

theorem foldl_assignPendingToTeam_one (teams : List String) (hnodup : teams.Nodup)
    (tasks : List Task) (t : String) (ht : t ∈ teams)
    (hbefore : ∀ team ∈ teams, team ≠ t → isTeamAvailable tasks team = false)
    (hafter : ∀ team ∈ teams, team ≠ t →
      isTeamAvailable (assignPendingToTeam tasks t) team = false) :
    teams.foldl assignPendingToTeam tasks = assignPendingToTeam tasks t := by
  induction teams with
  | nil => simp at ht
  | cons team rest ih =>
    rw [List.nodup_cons] at hnodup
    rw [List.foldl_cons]
    by_cases hteam : team = t
    · subst hteam
      apply foldl_assignPendingToTeam_busy
      intro x hx
      exact hafter x (List.mem_cons_of_mem _ hx) (fun hxt => hnodup.1 (hxt ▸ hx))
    · rw [assignPendingToTeam_busy tasks team (hbefore team (by simp) hteam)]
      have ht2 : t ∈ rest := by
        rcases List.mem_cons.mp ht with h | h
        · exact absurd h.symm hteam
        · exact h
      exact ih hnodup.2 ht2 (fun x hx => hbefore x (List.mem_cons_of_mem _ hx))
        (fun x hx => hafter x (List.mem_cons_of_mem _ hx))

theorem countP_holdsTeam_set_complete (tasks : List Task) (now : String) (i : Nat) (X : Task)
    (t : String) (hX : tasks[i]? = some X) (hXs : X.status = .in_progress)
    (hXt : X.assignedTeam = .str t) (team : String) :
    (tasks.set i (complete now X)).countP (holdsTeam team) =
      tasks.countP (holdsTeam team) - (if team = t then 1 else 0) := by
  obtain ⟨hi, hget⟩ := List.getElem?_eq_some_iff.mp hX
  rw [List.countP_set _ _ _ _ hi, hget]
  have h1 : holdsTeam team (complete now X) = false := by simp [holdsTeam, complete]
  have h2 : holdsTeam team X = decide (team = t) := by
    simp [holdsTeam, JsVal.strictEq, hXs, hXt, eq_comm]
  rw [h1, h2]
  by_cases htt : team = t <;> simp [htt]

theorem countP_holdsTeam_set_promote (tasks : List Task) (j : Nat) (P : Task) (t : String)
    (hP : tasks[j]? = some P) (hPs : P.status = .pending) (team : String) :
    (tasks.set j (promote t P)).countP (holdsTeam team) =
      tasks.countP (holdsTeam team) + (if team = t then 1 else 0) := by
  obtain ⟨hj, hget⟩ := List.getElem?_eq_some_iff.mp hP
  rw [List.countP_set _ _ _ _ hj, hget]
  have h1 : holdsTeam team P = false := by simp [holdsTeam, hPs]
  have h2 : holdsTeam team (promote t P) = decide (team = t) := by
    simp [holdsTeam, JsVal.strictEq, promote, eq_comm]
  rw [h1, h2]
  by_cases htt : team = t <;> simp [htt]

theorem exists_last_of_exists (p : Task → Bool) (l : List Task) (h : ∃ Q ∈ l, p Q = true) :
    ∃ (j : Nat) (P : Task), l[j]? = some P ∧ p P = true ∧
      ∀ (k : Nat) (Q : Task), j < k → l[k]? = some Q → p Q = false := by
  induction l with
  | nil => simp at h
  | cons a rest ih =>
    by_cases hrest : ∃ Q ∈ rest, p Q = true
    · obtain ⟨j, P, hP, hpP, hlast⟩ := ih hrest
      refine ⟨j + 1, P, by simpa using hP, hpP, ?_⟩
      intro k Q hk hQ
      cases k with
      | zero => omega
      | succ m => exact hlast m Q (by omega) (by simpa using hQ)
    · obtain ⟨Q, hQ, hpQ⟩ := h
      have hQa : Q = a := by
        rcases List.mem_cons.mp hQ with h | h
        · exact h
        · exact absurd ⟨Q, h, hpQ⟩ hrest
      subst hQa
      refine ⟨0, Q, by simp, hpQ, ?_⟩
      intro k R hk hR
      cases k with
      | zero => omega
      | succ m =>
        simp only [List.getElem?_cons_succ] at hR
        cases hpR : p R with
        | false => rfl
        | true => exact absurd ⟨R, List.mem_iff_getElem?.mpr ⟨m, hR⟩, hpR⟩ hrest

/-- The result of `markTaskAsCompleted(X.id)` position by position, in terms of the two
mutations `complete` and `promote`, under the hypotheses of C3. -/
theorem backfill_by_positions (tasks : List Task) (now : String) (i : Nat) (X : Task)
    (t : String)
    (hids : tasks.Pairwise (fun a b => a.id ≠ b.id))
    (hheld : ∀ team ∈ TEAMS, tasks.countP (holdsTeam team) = 1)
    (hX : tasks[i]? = some X) (hXs : X.status = .in_progress)
    (hXt : X.assignedTeam = .str t) (ht : t ∈ TEAMS) :
    (markTaskAsCompleted tasks now X.id)[i]? = some (complete now X) ∧
    (∀ (j : Nat) (P : Task), tasks[j]? = some P → P.status = .pending →
        (∀ (k : Nat) (Q : Task), j < k → tasks[k]? = some Q → Q.status ≠ .pending) →
        markTaskAsCompleted tasks now X.id =
          (tasks.set i (complete now X)).set j (promote t P)) ∧
    ((∀ Q ∈ tasks, Q.status ≠ .pending) →
        markTaskAsCompleted tasks now X.id = tasks.set i (complete now X) ∧
        TeamFree (markTaskAsCompleted tasks now X.id) t) := by
  obtain ⟨hi, hget⟩ := List.getElem?_eq_some_iff.mp hX
  -- `find` returns `X`, the only task with its id
  have hpX : JsVal.strictEq X.id X.id = true := by simp [JsVal.strictEq]
  have hfirst : ∀ (k : Nat) (y : Task), k < i → tasks[k]? = some y →
      JsVal.strictEq y.id X.id = false := by
    intro k y hk hy
    obtain ⟨hk2, hgetk⟩ := List.getElem?_eq_some_iff.mp hy
    have := List.pairwise_iff_getElem.mp hids k i hk2 hi hk
    rw [hgetk, hget] at this
    simp [JsVal.strictEq, this]
  have hfind := find?_eq_some_of_first (fun item => JsVal.strictEq item.id X.id) tasks i X hX
    hpX hfirst
  have hmod := modifyFirst_eq_set (fun item => JsVal.strictEq item.id X.id) (complete now)
    tasks i X hX hpX hfirst
  have hmark : markTaskAsCompleted tasks now X.id =
      assignPendingTasksToAvailableTeams (tasks.set i (complete now X)) := by
    simp [markTaskAsCompleted, hfind, hXs, hmod]
  -- availability of the teams once `X` is completed
  have hbusy1 : ∀ team ∈ TEAMS, team ≠ t →
      isTeamAvailable (tasks.set i (complete now X)) team = false := by
    intro team hteam hne
    apply isTeamAvailable_eq_false_of_countP
    rw [countP_holdsTeam_set_complete tasks now i X t hX hXs hXt team, hheld team hteam]
    simp [hne]
  have hfree1 : isTeamAvailable (tasks.set i (complete now X)) t = true := by
    apply isTeamAvailable_eq_true_of_countP
    rw [countP_holdsTeam_set_complete tasks now i X t hX hXs hXt t, hheld t ht]
    simp
  have hnodup : TEAMS.Nodup := by decide
  -- with a pending task
  have hpend : ∀ (j : Nat) (P : Task), tasks[j]? = some P → P.status = .pending →
      (∀ (k : Nat) (Q : Task), j < k → tasks[k]? = some Q → Q.status ≠ .pending) →
      markTaskAsCompleted tasks now X.id =
        (tasks.set i (complete now X)).set j (promote t P) := by
    intro j P hP hPs hlast
    have hij : i ≠ j := by
      intro hij
      subst hij
      rw [hX] at hP
      simp only [Option.some.injEq] at hP
      rw [hP, hPs] at hXs
      cases hXs
    have hP1 : (tasks.set i (complete now X))[j]? = some P := by
      rw [List.getElem?_set, if_neg hij]; exact hP
    have hlast1 : ∀ (k : Nat) (Q : Task), j < k →
        (tasks.set i (complete now X))[k]? = some Q →
        (fun task : Task => decide (task.status = .pending)) Q = false := by
      intro k Q hk hQ
      by_cases hik : i = k
      · subst hik
        rw [List.getElem?_set, if_pos rfl, if_pos hi] at hQ
        simp only [Option.some.injEq] at hQ
        subst hQ
        simp [complete]
      · rw [List.getElem?_set, if_neg hik] at hQ
        simpa using hlast k Q hk hQ
    have hstep : assignPendingToTeam (tasks.set i (complete now X)) t =
        (tasks.set i (complete now X)).set j (promote t P) := by
      simp only [assignPendingToTeam, hfree1, Bool.not_true, Bool.false_eq_true, if_false]
      exact modifyFirst_reverse_eq_set _ _ _ j P hP1 (by simp [hPs]) hlast1
    rw [hmark, assignPendingTasksToAvailableTeams,
      foldl_assignPendingToTeam_one TEAMS hnodup _ t ht hbusy1, hstep]
    intro team hteam hne
    rw [hstep]
    apply isTeamAvailable_eq_false_of_countP
    rw [countP_holdsTeam_set_promote _ j P t hP1 hPs team,
      countP_holdsTeam_set_complete tasks now i X t hX hXs hXt team, hheld team hteam]
    simp [hne]
  -- without a pending task
  have hnone : (∀ Q ∈ tasks, Q.status ≠ .pending) →
      markTaskAsCompleted tasks now X.id = tasks.set i (complete now X) := by
    intro hno
    have hstep : assignPendingToTeam (tasks.set i (complete now X)) t =
        tasks.set i (complete now X) := by
      simp only [assignPendingToTeam, hfree1, Bool.not_true, Bool.false_eq_true, if_false]
      rw [modifyFirst_eq_self_of_find?_none, List.reverse_reverse]
      rw [List.find?_eq_none]
      intro Q hQ
      rw [List.mem_reverse] at hQ
      rcases List.mem_or_eq_of_mem_set hQ with h | h
      · simpa using hno Q h
      · subst h; simp [complete]
    rw [hmark, assignPendingTasksToAvailableTeams,
      foldl_assignPendingToTeam_one TEAMS hnodup _ t ht hbusy1, hstep]
    intro team hteam hne
    rw [hstep]
    exact hbusy1 team hteam hne
  refine ⟨?_, hpend, fun hno => ⟨hnone hno, ?_⟩⟩
  · by_cases hex : ∃ Q ∈ tasks, Q.status = .pending
    · obtain ⟨j, P, hP, hpP, hlast⟩ := exists_last_of_exists
        (fun task : Task => decide (task.status = .pending)) tasks
        (by obtain ⟨Q, hQ, hs⟩ := hex; exact ⟨Q, hQ, by simp [hs]⟩)
      have hPs : P.status = .pending := by simpa using hpP
      have hij : j ≠ i := by
        intro hij
        subst hij
        rw [hX] at hP
        simp only [Option.some.injEq] at hP
        rw [hP, hPs] at hXs
        cases hXs
      rw [hpend j P hP hPs (fun k Q hk hQ => by simpa using hlast k Q hk hQ),
        List.getElem?_set, if_neg hij, List.getElem?_set, if_pos rfl, if_pos hi]
    · have hno : ∀ Q ∈ tasks, Q.status ≠ .pending := fun Q hQ hs => hex ⟨Q, hQ, hs⟩
      rw [hnone hno, List.getElem?_set, if_pos rfl, if_pos hi]
  · rw [hnone hno]
    exact (isTeamAvailable_iff _ t).mp hfree1

theorem scenarioTasks_eq : run [] scenarioSteps = scenarioTasks := by decide

/-- C3: in a task list with pairwise distinct ids in which every team of `TEAMS` is held by
exactly one `in_progress` task, let `X` (at index `i`) be an `in_progress` task holding the
team `t` of `TEAMS`. After `markTaskAsCompleted(X.id)`, `X` has status `completed` and
`completedAt = now`, which is not null, its other fields unchanged; if the list had a pending
task, the pending task `P` nearest the tail (at index `j`) now has status `in_progress` and
`assignedTeam = t`, its other fields unchanged, and no other task changed; if the list had no
pending task, no other task changed and `t` is free. -/
theorem markTaskAsCompleted_backfill (tasks : List Task) (now : String) (i : Nat) (X : Task)
    (t : String)
    (hids : tasks.Pairwise (fun a b => a.id ≠ b.id))
    (hheld : ∀ team ∈ TEAMS, tasks.countP (holdsTeam team) = 1)
    (hX : tasks[i]? = some X) (hXs : X.status = .in_progress)
    (hXt : X.assignedTeam = .str t) (ht : t ∈ TEAMS) :
    (∃ done : Task, (markTaskAsCompleted tasks now X.id)[i]? = some done ∧
        done = { X with status := .completed, completedAt := .str now } ∧
        done.status = .completed ∧ done.completedAt = .str now ∧ done.completedAt ≠ .null) ∧
    (∀ (j : Nat) (P : Task), tasks[j]? = some P → P.status = .pending →
        (∀ (k : Nat) (Q : Task), j < k → tasks[k]? = some Q → Q.status ≠ .pending) →
        markTaskAsCompleted tasks now X.id =
          (tasks.set i { X with status := .completed, completedAt := .str now }).set j
            { P with status := .in_progress, assignedTeam := .str t }) ∧
    ((∀ Q ∈ tasks, Q.status ≠ .pending) →
        markTaskAsCompleted tasks now X.id =
          tasks.set i { X with status := .completed, completedAt := .str now } ∧
        TeamFree (markTaskAsCompleted tasks now X.id) t) := by
  obtain ⟨h1, h2, h3⟩ := backfill_by_positions tasks now i X t hids hheld hX hXs hXt ht
  refine ⟨⟨_, h1, rfl, rfl, rfl, ?_⟩, h2, h3⟩
  intro hnull
  cases hnull

/-- Witness of C3: after T1..T4, completing T1 leaves T1 completed at the given time, still
with Equipo A, and puts T4 in progress on Equipo A; T3 and T2 are unchanged. -/
theorem markTaskAsCompleted_backfill_witness :
    markTaskAsCompleted scenarioTasks "2025-01-01T11:00:00.000Z" (.str "id-1") =
      [{ id := .str "id-4", title := "T4", status := .in_progress,
         assignedTeam := .str "Equipo A", source := "manual",
         createdAt := .str "2025-01-01T10:04:00.000Z", completedAt := .null },
       mkTask "3" .in_progress (.str "Equipo C"),
       mkTask "2" .in_progress (.str "Equipo B"),
       { id := .str "id-1", title := "T1", status := .completed,
         assignedTeam := .str "Equipo A", source := "manual",
         createdAt := .str "2025-01-01T10:01:00.000Z",
         completedAt := .str "2025-01-01T11:00:00.000Z" }] :=
  (markTaskAsCompleted_backfill scenarioTasks "2025-01-01T11:00:00.000Z" 3
    (mkTask "1" .in_progress (.str "Equipo A")) "Equipo A"
    (by decide) (by decide) (by decide) (by decide) (by decide) (by decide)).2.1 0
    (mkTask "4" .pending .null) (by decide) (by decide)
    (by
      intro k Q hk hQ
      rcases k with _ | _ | _ | _ | k
      · omega
      · have : Q = mkTask "3" .in_progress (.str "Equipo C") := by
          simpa [scenarioTasks] using hQ.symm
        subst this; decide
      · have : Q = mkTask "2" .in_progress (.str "Equipo B") := by
          simpa [scenarioTasks] using hQ.symm
        subst this; decide
      · have : Q = mkTask "1" .in_progress (.str "Equipo A") := by
          simpa [scenarioTasks] using hQ.symm
        subst this; decide
      · simp [scenarioTasks] at hQ)

/-! ## Reconciliation after a reload (C5, C6) -/

/-- C5, the code at the failing inputs: on a list ordered most recent first,
`reconcileAssignments` gives the first free team to the pending task nearest the head, the
most recently created one. With one task on Equipo B and two pending tasks, Equipo A goes to
the newer pending task and Equipo C to the older; with four pending tasks and three free
teams, the task left pending is the oldest. -/
theorem reconcileAssignments_newest_first :
    reconcileAssignments reloadedTasks =
        [promote "Equipo A" (mkTask "3" .pending .null),
         mkTask "2" .in_progress (.str "Equipo B"),
         promote "Equipo C" (mkTask "1" .pending .null)] ∧
    reconcileAssignments reloadedPending =
        [promote "Equipo A" (mkTask "4" .pending .null),
         promote "Equipo B" (mkTask "3" .pending .null),
         promote "Equipo C" (mkTask "2" .pending .null),
         mkTask "1" .pending .null] := by
  decide

/-- C6, the code at the failing input: two stored records that are both `in_progress` on
Equipo A come out of `normalizeTask` and `reconcileAssignments` unchanged, both still
`in_progress` on Equipo A, so the reconciled list has two `in_progress` tasks on one team. -/
theorem reconcileAssignments_shared_team :
    reconcileAssignments
        (duplicatedRecords.map
          (fun r => normalizeTask r "fresh-id" "2025-01-02T00:00:00.000Z")) =
      [{ id := .str "id-2", title := "T2", status := .in_progress,
         assignedTeam := .str "Equipo A", source := "manual",
         createdAt := .str "2025-01-01T10:02:00.000Z", completedAt := .null },
       { id := .str "id-1", title := "T1", status := .in_progress,
         assignedTeam := .str "Equipo A", source := "manual",
         createdAt := .str "2025-01-01T10:01:00.000Z", completedAt := .null }] ∧
    ¬ NoSharedTeam (reconcileAssignments
        (duplicatedRecords.map
          (fun r => normalizeTask r "fresh-id" "2025-01-02T00:00:00.000Z"))) := by
  decide

theorem reconcileCollect_spec (tasks : List Task) :
    ∀ (S0 : List JsVal),
      (∀ v, (reconcileCollect S0 tasks).2.countP (holdsValue v) = tasks.countP (holdsValue v)) ∧
      (∀ v ∈ S0, v ∈ (reconcileCollect S0 tasks).1) ∧
      (∀ a ∈ (reconcileCollect S0 tasks).2, a.status = .in_progress →
        a.assignedTeam.truthy = true → a.assignedTeam ∈ (reconcileCollect S0 tasks).1) := by
  induction tasks with
  | nil => intro S0; simp [reconcileCollect]
  | cons task rest ih =>
    intro S0
    simp only [reconcileCollect]
    split
    · rename_i hcond
      simp only [Bool.and_eq_true, decide_eq_true_eq] at hcond
      obtain ⟨h1, h2, h3⟩ := ih (task.assignedTeam :: S0)
      refine ⟨fun v => ?_, fun v hv => h2 v (List.mem_cons_of_mem _ hv), ?_⟩
      · simp only [List.countP_cons, h1 v]
      · intro a ha hs htr
        rcases List.mem_cons.mp ha with h | h
        · subst h; exact h2 _ (List.mem_cons_self _ _)
        · exact h3 a h hs htr
    · split
      · rename_i hnot
        obtain ⟨h1, h2, h3⟩ := ih S0
        refine ⟨fun v => ?_, h2, ?_⟩
        · simp only [List.countP_cons, h1 v]
          simp [holdsValue, hnot]
        · intro a ha hs htr
          rcases List.mem_cons.mp ha with h | h
          · subst h; exact absurd hs hnot
          · exact h3 a h hs htr
      · rename_i hcond hip
        simp only [Decidable.not_not] at hip
        obtain ⟨h1, h2, h3⟩ := ih S0
        refine ⟨fun v => ?_, h2, ?_⟩
        · simp only [List.countP_cons, h1 v]
        · intro a ha hs htr
          rcases List.mem_cons.mp ha with h | h
          · subst h; simp [hip, htr] at hcond
          · exact h3 a h hs htr

theorem countP_reconcileAssign (tasks : List Task) :
    ∀ (S : List JsVal) (v : JsVal),
      (reconcileAssign S tasks).countP (holdsValue v) ≤
        tasks.countP (holdsValue v) +
          (if (∃ team ∈ TEAMS, v = .str team) ∧ v ∉ S then 1 else 0) := by
  induction tasks with
  | nil => intro S v; simp [reconcileAssign]
  | cons task rest ih =>
    intro S v
    simp only [reconcileAssign]
    split
    · simp only [List.countP_cons]
      have := ih S v
      omega
    · rename_i hpend
      simp only [Decidable.not_not] at hpend
      split
      · omega
      · rename_i availableTeam hfind
        split
        · omega
        · have hmem : availableTeam ∈ TEAMS := List.mem_of_find?_eq_some hfind
          have hnotin : JsVal.str availableTeam ∉ S := by
            have := List.find?_some hfind
            simpa using this
          have hrec := ih (.str availableTeam :: S) v
          simp only [List.countP_cons]
          have htask : holdsValue v task = false := by simp [holdsValue, hpend]
          rw [htask]
          by_cases hv : v = .str availableTeam
          · subst hv
            have h1 : ¬ ((∃ team ∈ TEAMS, JsVal.str availableTeam = .str team) ∧
                JsVal.str availableTeam ∉ JsVal.str availableTeam :: S) := by simp
            have h2 : (∃ team ∈ TEAMS, JsVal.str availableTeam = .str team) ∧
                JsVal.str availableTeam ∉ S := ⟨⟨availableTeam, hmem, rfl⟩, hnotin⟩
            rw [if_neg h1] at hrec
            rw [if_pos h2]
            split <;> simp at * <;> omega
          · have hp : holdsValue v (promote availableTeam task) = false := by
              simp [holdsValue, promote, Ne.symm hv]
            rw [hp]
            have hle : (if (∃ team ∈ TEAMS, v = .str team) ∧ v ∉ JsVal.str availableTeam :: S
                then 1 else 0) ≤
                (if (∃ team ∈ TEAMS, v = .str team) ∧ v ∉ S then 1 else 0) := by
              by_cases hc : (∃ team ∈ TEAMS, v = .str team) ∧ v ∉ S
              · rw [if_pos hc]; split <;> omega
              · rw [if_neg hc, if_neg]
                intro hc2
                exact hc ⟨hc2.1, fun hin => hc2.2 (List.mem_cons_of_mem _ hin)⟩
            simp at *
            omega

/-- Reconciliation creates no shared team of its own: if no two `in_progress` tasks of the
loaded list have the same `assignedTeam`, neither have two of the list after
`reconcileAssignments`. -/
theorem reconcileAssignments_noSharedTeam (tasks : List Task) (h : NoSharedTeam tasks) :
    NoSharedTeam (reconcileAssignments tasks) := by
  rw [noSharedTeam_iff_countP] at h ⊢
  intro v
  obtain ⟨h1, _, h3⟩ := reconcileCollect_spec tasks []
  show (reconcileAssign (reconcileCollect [] tasks).1 (reconcileCollect [] tasks).2).countP
    (holdsValue v) ≤ 1
  have hle := countP_reconcileAssign (reconcileCollect [] tasks).2 (reconcileCollect [] tasks).1 v
  by_cases hc : (∃ team ∈ TEAMS, v = .str team) ∧ v ∉ (reconcileCollect [] tasks).1
  · rw [if_pos hc] at hle
    have hzero : (reconcileCollect [] tasks).2.countP (holdsValue v) = 0 := by
      rw [List.countP_eq_zero]
      intro a ha hav
      simp only [holdsValue, decide_eq_true_eq] at hav
      obtain ⟨⟨team, hteam, hvt⟩, hnot⟩ := hc
      apply hnot
      rw [← hav.2]
      apply h3 a ha hav.1
      rw [hav.2, hvt]
      exact teams_truthy team hteam
    omega
  · rw [if_neg hc, h1 v] at hle
    exact le_trans hle (h v)

/-- An instance: the loaded list with one task on Equipo B and two pending tasks. -/
theorem reconcileAssignments_noSharedTeam_witness :
    NoSharedTeam reloadedTasks ∧ NoSharedTeam (reconcileAssignments reloadedTasks) :=
  ⟨by decide, reconcileAssignments_noSharedTeam reloadedTasks (by decide)⟩

/-! ## Team and status (C7) -/

theorem forall₂_preserves (P : Task → Prop) (l₁ l₂ : List Task)
    (h : List.Forall₂ (fun a b => P a → P b) l₁ l₂) (hP : ∀ a ∈ l₁, P a) : ∀ b ∈ l₂, P b := by
  induction h with
  | nil => intro b hb; simp at hb
  | @cons x y _ _ hxy _ ih =>
    intro b hb
    rcases List.mem_cons.mp hb with h | h
    · subst h; exact hxy (hP x (List.mem_cons_self _ _))
    · exact ih (fun a ha => hP a (List.mem_cons_of_mem _ ha)) b h

theorem getAvailableTeamFrom_cases (tasks : List Task) (teams : List String) :
    getAvailableTeamFrom tasks teams = .null ∨
      ∃ team ∈ teams, getAvailableTeamFrom tasks teams = .str team := by
  induction teams with
  | nil => exact Or.inl rfl
  | cons team rest ih =>
    simp only [getAvailableTeamFrom]
    split
    · exact Or.inr ⟨team, List.mem_cons_self _ _, rfl⟩
    · rcases ih with h | ⟨t, ht, h⟩
      · exact Or.inl h
      · exact Or.inr ⟨t, List.mem_cons_of_mem _ ht, h⟩

theorem teamMatchesStatus_createTask (tasks : List Task) (newId now title source : String)
    (h : ∀ t ∈ tasks, TeamMatchesStatus t) :
    ∀ t ∈ createTask tasks newId now title source, TeamMatchesStatus t := by
  intro t ht
  rcases List.mem_cons.mp ht with hnew | hold
  · subst hnew
    simp only [assignTeamIfAvailable, getAvailableTeam]
    rcases getAvailableTeamFrom_cases tasks TEAMS with hnull | ⟨team, hteam, hstr⟩
    · rw [hnull]
      simp [JsVal.truthy, TeamMatchesStatus]
    · rw [hstr]
      simp only [teams_truthy team hteam, Bool.not_true, Bool.false_eq_true, if_false]
      exact ⟨fun hs => (by cases hs), fun _ => ⟨team, hteam, rfl⟩, Or.inr ⟨team, hteam, rfl⟩⟩
  · exact h t hold

theorem teamMatchesStatus_markTaskAsCompleted (tasks : List Task) (now : String)
    (taskId : JsVal) (h : ∀ t ∈ tasks, TeamMatchesStatus t) :
    ∀ t ∈ markTaskAsCompleted tasks now taskId, TeamMatchesStatus t := by
  apply forall₂_preserves TeamMatchesStatus tasks _ _ h
  apply forall₂_markTaskAsCompleted _ (fun a => id) (fun a b c hab hbc ha => hbc (hab ha))
  · intro a _ _ ha
    exact ⟨fun hs => (by simp [complete] at hs), fun hs => (by simp [complete] at hs), ha.2.2⟩
  · intro team hteam a _ _
    exact ⟨fun hs => (by simp [promote] at hs), fun _ => ⟨team, hteam, rfl⟩,
      Or.inr ⟨team, hteam, rfl⟩⟩

theorem teamMatchesStatus_run (steps : List Step) :
    ∀ (tasks : List Task), (∀ t ∈ tasks, TeamMatchesStatus t) →
      ∀ t ∈ run tasks steps, TeamMatchesStatus t := by
  unfold run
  induction steps with
  | nil => intro tasks h; exact h
  | cons s rest ih =>
    intro tasks h
    rw [List.foldl_cons]
    apply ih
    cases s with
    | create newId now title source =>
      exact teamMatchesStatus_createTask tasks newId now title source h
    | complete now taskId => exact teamMatchesStatus_markTaskAsCompleted tasks now taskId h

/-- C7 fails as stated: after creating T1 and completing it, T1 is completed and its
`assignedTeam` is still Equipo A. -/
theorem completed_keeps_team :
    ¬ ∀ (steps : List Step), ∀ t ∈ run [] steps,
        (t.assignedTeam ≠ .null ↔ t.status = .in_progress) := by
  intro h
  have h1 := h [.create "id-1" "2025-01-01T10:01:00.000Z" "T1" "manual",
      .complete "2025-01-01T11:00:00.000Z" (.str "id-1")]
    { id := .str "id-1", title := "T1", status := .completed,
      assignedTeam := .str "Equipo A", source := "manual",
      createdAt := .str "2025-01-01T10:01:00.000Z",
      completedAt := .str "2025-01-01T11:00:00.000Z" }
    (by decide)
  revert h1
  decide

theorem forall₂_getElem? (R : Task → Task → Prop) (l₁ l₂ : List Task)
    (h : List.Forall₂ R l₁ l₂) :
    ∀ (k : Nat) (a : Task), l₁[k]? = some a → ∃ b, l₂[k]? = some b ∧ R a b := by
  induction h with
  | nil => intro k a ha; simp at ha
  | @cons x y _ _ hxy _ ih =>
    intro k a ha
    cases k with
    | zero =>
      simp only [List.getElem?_cons_zero, Option.some.injEq] at ha
      subst ha
      exact ⟨y, by simp, hxy⟩
    | succ m =>
      simp only [List.getElem?_cons_succ] at ha ⊢
      exact ih m a ha

/-- One step never changes the `assignedTeam` of a task that is completed after the step. -/
theorem completed_team_kept (tasks : List Task) (s : Step) (k : Nat) (a : Task)
    (ha : tasks.reverse[k]? = some a) :
    ∃ b, (step tasks s).reverse[k]? = some b ∧
      (b.status = .completed → b.assignedTeam = a.assignedTeam) := by
  cases s with
  | create newId now title source =>
    refine ⟨a, ?_, fun _ => rfl⟩
    have hk : k < tasks.reverse.length := (List.getElem?_eq_some_iff.mp ha).1
    simp only [step, createTask, List.reverse_cons]
    rw [List.getElem?_append_left hk]
    exact ha
  | complete now taskId =>
    simp only [step]
    unfold markTaskAsCompleted
    split
    · exact ⟨a, ha, fun _ => rfl⟩
    · split
      · exact ⟨a, ha, fun _ => rfl⟩
      · have h1 := forall₂_modifyFirst (fun a b => b = a ∨ b = complete now a)
          (fun item => JsVal.strictEq item.id taskId) (complete now) (fun a => Or.inl rfl)
          tasks (fun x _ => Or.inr rfl)
        have h2 := forall₂_assignPending
          (fun b c => c = b ∨ (b.status = .pending ∧ c.status = .in_progress))
          (fun b => Or.inl rfl)
          (fun a b c hab hbc => by
            rcases hab with hab | ⟨hap, hbi⟩
            · subst hab; exact hbc
            · rcases hbc with hbc | ⟨hbp, _⟩
              · subst hbc; exact Or.inr ⟨hap, hbi⟩
              · rw [hbi] at hbp; cases hbp)
          (fun team _ b hb => Or.inr ⟨hb, rfl⟩)
          (modifyFirst (fun item => JsVal.strictEq item.id taskId) (complete now) tasks)
        obtain ⟨b, hb, hab⟩ := forall₂_getElem? _ _ _ (List.forall₂_reverse_iff.mpr h1) k a ha
        obtain ⟨c, hc, hbc⟩ := forall₂_getElem? _ _ _ (List.forall₂_reverse_iff.mpr h2) k b hb
        refine ⟨c, hc, fun hdone => ?_⟩
        rcases hbc with hbc | ⟨_, hci⟩
        · subst hbc
          rcases hab with hab | hab
          · rw [hab]
          · rw [hab]; rfl
        · rw [hci] at hdone; cases hdone

/-- C7 as amended: in every task list reachable from the empty list by `createTask` and
`markTaskAsCompleted` calls, every task that is not completed has a non-null `assignedTeam`
if and only if its status is `in_progress`, and the `assignedTeam` of any task is `null` or a
team of `TEAMS`; and a completed task keeps the team it had: whatever the next step, a task
that is completed after the step has the `assignedTeam` it had before the step (at the same
position counted from the tail), which is `null` if it was pending and a team of `TEAMS` if
it was in progress. -/
theorem assignedTeam_iff_in_progress (steps : List Step) :
    (∀ t ∈ run [] steps,
      (t.status ≠ .completed → (t.assignedTeam ≠ .null ↔ t.status = .in_progress)) ∧
      (t.assignedTeam = .null ∨ ∃ team ∈ TEAMS, t.assignedTeam = .str team)) ∧
    (∀ (s : Step) (k : Nat) (a : Task), (run [] steps).reverse[k]? = some a →
      ∃ b, (step (run [] steps) s).reverse[k]? = some b ∧
        (b.status = .completed →
          b.assignedTeam = a.assignedTeam ∧
          (a.status = .pending → b.assignedTeam = .null) ∧
          (a.status = .in_progress → ∃ team ∈ TEAMS, b.assignedTeam = .str team))) := by
  have hinv := teamMatchesStatus_run steps [] (by simp)
  refine ⟨fun t ht => ?_, fun s k a ha => ?_⟩
  · obtain ⟨hp, hi, hall⟩ := hinv t ht
    refine ⟨fun hnc => ⟨fun hnn => ?_, fun hs => ?_⟩, hall⟩
    · cases hst : t.status with
      | pending => exact absurd (hp hst) hnn
      | in_progress => rfl
      | completed => exact absurd hst hnc
    · obtain ⟨team, _, hteam⟩ := hi hs
      rw [hteam]
      simp
  · obtain ⟨b, hb, hkeep⟩ := completed_team_kept _ s k a ha
    have hmem : a ∈ run [] steps :=
      List.mem_reverse.mp (List.mem_iff_getElem?.mpr ⟨k, ha⟩)
    obtain ⟨hp, hi, _⟩ := hinv a hmem
    refine ⟨b, hb, fun hdone => ⟨hkeep hdone, fun hs => ?_, fun hs => ?_⟩⟩
    · rw [hkeep hdone]; exact hp hs
    · rw [hkeep hdone]; exact hi hs

/-- Witness of C7 as amended: after T1..T4, completing T1 (in progress on Equipo A) leaves it
completed with `assignedTeam` still Equipo A. -/
theorem assignedTeam_iff_in_progress_witness :
    (step (run [] scenarioSteps)
        (.complete "2025-01-01T11:00:00.000Z" (.str "id-1"))).reverse[0]? =
      some { id := .str "id-1", title := "T1", status := .completed,
             assignedTeam := .str "Equipo A", source := "manual",
             createdAt := .str "2025-01-01T10:01:00.000Z",
             completedAt := .str "2025-01-01T11:00:00.000Z" } ∧
    ∃ b, (step (run [] scenarioSteps)
        (.complete "2025-01-01T11:00:00.000Z" (.str "id-1"))).reverse[0]? = some b ∧
      (b.status = .completed →
        b.assignedTeam = .str "Equipo A" ∧
        ((mkTask "1" .in_progress (.str "Equipo A")).status = .pending →
          b.assignedTeam = .null) ∧
        ((mkTask "1" .in_progress (.str "Equipo A")).status = .in_progress →
          ∃ team ∈ TEAMS, b.assignedTeam = .str team)) :=
  ⟨by decide,
    (assignedTeam_iff_in_progress scenarioSteps).2
      (.complete "2025-01-01T11:00:00.000Z" (.str "id-1")) 0
      (mkTask "1" .in_progress (.str "Equipo A")) (by decide)⟩

/-! ## The status state machine (C8) -/

theorem stepAllows_refl (s : Step) (a : Task) : StepAllows s a a :=
  ⟨rfl, le_refl _, fun _ => rfl, fun h1 h2 => absurd h2 h1⟩

theorem stepAllows_trans (s : Step) (a b c : Task) (hab : StepAllows s a b)
    (hbc : StepAllows s b c) : StepAllows s a c := by
  obtain ⟨h1, h2, h3, h4⟩ := hab
  obtain ⟨g1, g2, g3, g4⟩ := hbc
  refine ⟨h1.trans g1, le_trans h2 g2, fun ha => ?_, fun ha hc => ?_⟩
  · have hb := h3 ha
    subst hb
    exact g3 ha
  · by_cases hb : b.status = .completed
    · exact h4 ha hb
    · rw [h1]
      exact g4 hb hc

theorem stepAllows_markTaskAsCompleted (tasks : List Task) (now : String) (taskId : JsVal) :
    List.Forall₂ (StepAllows (.complete now taskId)) tasks
      (markTaskAsCompleted tasks now taskId) := by
  apply forall₂_markTaskAsCompleted _ (stepAllows_refl _) (stepAllows_trans _)
  · intro a hid hnot
    refine ⟨rfl, ?_, fun h => absurd h hnot, fun _ _ => ⟨now, by rw [hid]⟩⟩
    cases hs : a.status <;> simp [complete, Status.rank]
  · intro team _ a ha
    refine ⟨rfl, ?_, fun h => ?_, fun _ h => ?_⟩
    · simp [promote, ha, Status.rank]
    · rw [ha] at h; cases h
    · simp [promote] at h

/-- C8 fails as stated: after T1..T4, the step `markTaskAsCompleted` of the id of T4 changes
T4 from pending to completed. -/
theorem pending_completed_directly :
    ¬ ∀ (steps : List Step) (s : Step) (k : Nat) (a b : Task),
        (run [] steps).reverse[k]? = some a → (step (run [] steps) s).reverse[k]? = some b →
        b.status = .completed → a.status = .completed ∨ a.status = .in_progress := by
  intro h
  have h1 := h scenarioSteps (.complete "2025-01-01T11:00:00.000Z" (.str "id-4")) 3
    (mkTask "4" .pending .null)
    (complete "2025-01-01T11:00:00.000Z" (mkTask "4" .pending .null))
    (by decide) (by decide) (by decide)
  revert h1
  decide

/-- C8 as amended: for every task list and every step (`createTask` or
`markTaskAsCompleted`), each task of the list is still there after the step, at the same
position counted from the tail, with the same id and a status that has not moved backwards
in the order pending, in_progress, completed; a completed task is unchanged; and a task
becomes completed only by the step `markTaskAsCompleted` of its id, from `in_progress` or
from `pending`. -/
theorem step_status_forward (tasks : List Task) (s : Step) (k : Nat) (a : Task)
    (ha : tasks.reverse[k]? = some a) :
    ∃ b, (step tasks s).reverse[k]? = some b ∧ StepAllows s a b := by
  cases s with
  | create newId now title source =>
    refine ⟨a, ?_, stepAllows_refl _ a⟩
    have hk : k < tasks.reverse.length := (List.getElem?_eq_some_iff.mp ha).1
    simp only [step, createTask, List.reverse_cons]
    rw [List.getElem?_append_left hk]
    exact ha
  | complete now taskId =>
    have h := stepAllows_markTaskAsCompleted tasks now taskId
    exact forall₂_getElem? _ _ _ (List.forall₂_reverse_iff.mpr h) k a ha

/-- Witness of C8 as amended: T4, pending after T1..T4, under the completion of its id. -/
theorem step_status_forward_witness :
    ∃ b, (step scenarioTasks (.complete "2025-01-01T11:00:00.000Z" (.str "id-4"))).reverse[3]?
        = some b ∧
      StepAllows (.complete "2025-01-01T11:00:00.000Z" (.str "id-4"))
        (mkTask "4" .pending .null) b :=
  step_status_forward scenarioTasks (.complete "2025-01-01T11:00:00.000Z" (.str "id-4")) 3
    (mkTask "4" .pending .null) (by decide)

/-! ## Sanitizing stored records (C9, C10) -/

theorem orElse_of_not_nullish (a b : JsVal) (h : a.isNullish = false) : a.orElse b = a := by
  simp [JsVal.orElse, h]

theorem normalizeStatus_toString (status : Status) :
    normalizeStatus (.str status.toString) = status := by
  cases status <;> decide

/-- In memory, `normalizeTask` returns a well-formed record as it is, field for field. -/
theorem normalizeTask_toRaw (r : RawTask) (newId now : String) (h : WellFormed r) :
    (normalizeTask r newId now).toRaw = r := by
  obtain ⟨hid, ⟨title, htitle⟩, ⟨status, hstatus⟩, hteam, hsource, hcreated, hcompleted⟩ := h
  cases r with
  | mk id title0 status0 assignedTeam source createdAt completedAt =>
    simp only at hid htitle hstatus hteam hsource hcreated hcompleted
    subst htitle hstatus
    have h1 : id.orElse (.str newId) = id := orElse_of_not_nullish _ _ hid
    have h2 : createdAt.orElse (.str now) = createdAt := orElse_of_not_nullish _ _ hcreated
    have h3 : assignedTeam.orElse .null = assignedTeam := by
      rcases hteam with h | ⟨team, h⟩ <;> subst h <;> rfl
    have h4 : completedAt.orElse .null = completedAt := by
      rcases hcompleted with h | ⟨ts, h⟩ <;> subst h <;> rfl
    have h5 : JsVal.str (if JsVal.strictEq source (.str "auto") then "auto" else "manual")
        = source := by
      rcases hsource with h | h <;> subst h <;> decide
    simp only [normalizeTask, Task.toRaw, h1, h2, h3, h4, h5, normalizeStatus_toString]
    simp [JsVal.orElse, JsVal.isNullish, JsVal.toJsString]

theorem written_of_isScalar (v : JsVal) (h : v.isScalar = true) : v.written = some v := by
  cases v with
  | undefined => cases h
  | null => cases h
  | bool b => rfl
  | num text =>
    simp only [JsVal.isScalar] at h
    simp [JsVal.written, h]
  | str s => rfl
  | obj ref text => cases h

theorem toRecord_eq_toRaw (task : Task) (h1 : task.id.written = some task.id)
    (h2 : task.assignedTeam.written = some task.assignedTeam)
    (h3 : task.createdAt.written = some task.createdAt)
    (h4 : task.completedAt.written = some task.completedAt) :
    task.toRecord = some task.toRaw := by
  simp only [Task.toRecord, h1, h2, h3, h4, Task.toRaw]

/-- C9 fails as stated: the record with `id` = `1e400` (read as `Infinity`) is well-formed,
its id is present, and `normalizeTask` keeps the id; `JSON.stringify` then writes the id as
`null`, so the record written back is not the record read. -/
theorem nonfinite_id_written_null :
    ¬ ∀ (r : RawTask) (newId now : String), WellFormed r →
        (normalizeTask r newId now).toRecord = some r := by
  intro h
  have h1 := h overflowIdRecord "fresh-id" "2025-01-02T00:00:00.000Z"
    ⟨by decide, ⟨"T2", rfl⟩, ⟨.in_progress, rfl⟩, Or.inr ⟨"Equipo B", rfl⟩, Or.inr rfl,
      by decide, Or.inl rfl⟩
  revert h1
  decide

/-- C9 as amended: for every well-formed task record `r`, `normalizeTask(r)` equals `r`
field for field in memory; and when moreover `id` and `createdAt` are strings, booleans or
finite numbers, the record written back by `JSON.stringify` is `r`, field for field. -/
theorem normalizeTask_roundtrip (r : RawTask) (newId now : String) (h : WellFormed r) :
    (normalizeTask r newId now).toRaw = r ∧
    (r.id.isScalar = true → r.createdAt.isScalar = true →
      (normalizeTask r newId now).toRecord = some r) := by
  have hraw := normalizeTask_toRaw r newId now h
  refine ⟨hraw, fun hid hcreated => ?_⟩
  have hfields : (normalizeTask r newId now).toRaw = r := hraw
  have e1 : (normalizeTask r newId now).id = r.id := congrArg RawTask.id hfields
  have e2 : (normalizeTask r newId now).assignedTeam = r.assignedTeam :=
    congrArg RawTask.assignedTeam hfields
  have e3 : (normalizeTask r newId now).createdAt = r.createdAt :=
    congrArg RawTask.createdAt hfields
  have e4 : (normalizeTask r newId now).completedAt = r.completedAt :=
    congrArg RawTask.completedAt hfields
  obtain ⟨_, _, _, hteam, _, _, hcompleted⟩ := h
  rw [toRecord_eq_toRaw _ (by rw [e1]; exact written_of_isScalar _ hid)
    (by rw [e2]; rcases hteam with h | ⟨team, h⟩ <;> rw [h] <;> rfl)
    (by rw [e3]; exact written_of_isScalar _ hcreated)
    (by rw [e4]; rcases hcompleted with h | ⟨ts, h⟩ <;> rw [h] <;> rfl), hraw]

/-- Witness of C9 as amended: a stored record of a task in progress on Equipo B, with a
string id and a string timestamp. -/
theorem normalizeTask_roundtrip_witness :
    (normalizeTask storedRecord "fresh-id" "2025-01-02T00:00:00.000Z").toRaw = storedRecord ∧
    (normalizeTask storedRecord "fresh-id" "2025-01-02T00:00:00.000Z").toRecord =
      some storedRecord :=
  have h := normalizeTask_roundtrip storedRecord "fresh-id" "2025-01-02T00:00:00.000Z"
    ⟨by decide, ⟨"T2", rfl⟩, ⟨.in_progress, rfl⟩, Or.inr ⟨"Equipo B", rfl⟩, Or.inr rfl,
      by decide, Or.inl rfl⟩
  ⟨h.1, h.2 (by decide) (by decide)⟩

/-- C10 fails as stated: the record whose title is the empty string keeps the empty title
through `normalizeTask`. -/
theorem blank_title_kept :
    ¬ ∀ (r : RawTask) (newId now : String),
        (r.title.isNullish = true ∨ ∃ s : String, r.title = .str s ∧ isBlank s = true) →
        (normalizeTask r newId now).title = "Tarea sin título" := by
  intro h
  have h1 := h blankTitleRecord "fresh-id" "2025-01-02T00:00:00.000Z"
    (Or.inr ⟨"", rfl, by decide⟩)
  revert h1
  decide

/-- C10 as amended: for every raw record whose title is missing (absent or null),
`normalizeTask` returns a task whose title is the placeholder "Tarea sin título"; a title
that is a string, blank or not, is kept as it is. -/
theorem normalizeTask_title (r : RawTask) (newId now : String) :
    (r.title.isNullish = true → (normalizeTask r newId now).title = "Tarea sin título") ∧
    (∀ s : String, r.title = .str s → (normalizeTask r newId now).title = s) := by
  constructor
  · intro h
    simp [normalizeTask, JsVal.orElse, h, JsVal.toJsString]
  · intro s hs
    simp [normalizeTask, JsVal.orElse, hs, JsVal.isNullish, JsVal.toJsString]

/-- Witness of C10 as amended: a stored record without a title. -/
theorem normalizeTask_title_witness :
    (normalizeTask untitledRecord "fresh-id" "2025-01-02T00:00:00.000Z").title =
      "Tarea sin título" :=
  (normalizeTask_title untitledRecord "fresh-id" "2025-01-02T00:00:00.000Z").1 (by decide)

/-! ## Work conservation (C11) -/

theorem isTeamAvailable_eq_false_iff (tasks : List Task) (team : String) :
    isTeamAvailable tasks team = false ↔
      ∃ holder ∈ tasks, holder.status = .in_progress ∧ holder.assignedTeam = .str team := by
  simp [isTeamAvailable, holdsTeam_iff]

theorem forall₂_exists (P : Task → Prop) (l₁ l₂ : List Task)
    (h : List.Forall₂ (fun a b => P a → P b) l₁ l₂) (hP : ∃ a ∈ l₁, P a) : ∃ b ∈ l₂, P b := by
  induction h with
  | nil => simp at hP
  | @cons x y _ _ hxy _ ih =>
    obtain ⟨a, ha, hPa⟩ := hP
    rcases List.mem_cons.mp ha with h | h
    · subst h
      exact ⟨y, List.mem_cons_self _ _, hxy hPa⟩
    · obtain ⟨b, hb, hPb⟩ := ih ⟨a, h, hPa⟩
      exact ⟨b, List.mem_cons_of_mem _ hb, hPb⟩

theorem exists_mem_modifyFirst (p : Task → Bool) (f : Task → Task) (l : List Task)
    (h : ∃ x ∈ l, p x = true) : ∃ x, p x = true ∧ f x ∈ modifyFirst p f l := by
  induction l with
  | nil => simp at h
  | cons a rest ih =>
    simp only [modifyFirst]
    cases hpa : p a with
    | true => exact ⟨a, hpa, by simp⟩
    | false =>
      obtain ⟨x, hx, hpx⟩ := h
      have hrest : ∃ x ∈ rest, p x = true := by
        rcases List.mem_cons.mp hx with h | h
        · subst h; rw [hpa] at hpx; cases hpx
        · exact ⟨x, h, hpx⟩
      obtain ⟨y, hpy, hy⟩ := ih hrest
      exact ⟨y, hpy, by simpa using Or.inr hy⟩

theorem held_assignPendingToTeam (tasks : List Task) (team t : String)
    (h : ∃ holder ∈ tasks, holder.status = .in_progress ∧ holder.assignedTeam = .str t) :
    ∃ holder ∈ assignPendingToTeam tasks team,
      holder.status = .in_progress ∧ holder.assignedTeam = .str t := by
  apply forall₂_exists (fun a => a.status = .in_progress ∧ a.assignedTeam = .str t) tasks _ _ h
  apply forall₂_assignPendingToTeam _ (fun a => id)
  intro a ha hheld
  rw [ha] at hheld
  exact absurd hheld.1 (by decide)

theorem noPending_assignPendingToTeam (tasks : List Task) (team : String)
    (h : ∀ Q ∈ tasks, Q.status ≠ .pending) :
    ∀ Q ∈ assignPendingToTeam tasks team, Q.status ≠ .pending := by
  apply forall₂_preserves (fun a => a.status ≠ .pending) tasks _ _ h
  apply forall₂_assignPendingToTeam _ (fun a => id)
  intro a _ _
  simp [promote]

theorem assignPendingToTeam_served (tasks : List Task) (team : String) :
    (∃ holder ∈ assignPendingToTeam tasks team,
        holder.status = .in_progress ∧ holder.assignedTeam = .str team) ∨
      ∀ Q ∈ assignPendingToTeam tasks team, Q.status ≠ .pending := by
  cases hav : isTeamAvailable tasks team with
  | false =>
    left
    rw [assignPendingToTeam_busy tasks team hav]
    exact (isTeamAvailable_eq_false_iff tasks team).mp hav
  | true =>
    by_cases hex : ∃ Q ∈ tasks, Q.status = .pending
    · left
      obtain ⟨Q, hQ, hs⟩ := hex
      obtain ⟨P, _, hP⟩ := exists_mem_modifyFirst
        (fun task => decide (task.status = .pending)) (promote team) tasks.reverse
        ⟨Q, List.mem_reverse.mpr hQ, by simp [hs]⟩
      refine ⟨promote team P, ?_, rfl, rfl⟩
      simp only [assignPendingToTeam, hav, Bool.not_true, Bool.false_eq_true, if_false,
        List.mem_reverse]
      exact hP
    · right
      exact noPending_assignPendingToTeam tasks team (fun Q hQ hs => hex ⟨Q, hQ, hs⟩)

theorem held_foldl_assignPendingToTeam (teams : List String) (t : String) :
    ∀ (tasks : List Task),
      (∃ holder ∈ tasks, holder.status = .in_progress ∧ holder.assignedTeam = .str t) →
      ∃ holder ∈ teams.foldl assignPendingToTeam tasks,
        holder.status = .in_progress ∧ holder.assignedTeam = .str t := by
  induction teams with
  | nil => intro tasks h; exact h
  | cons team rest ih =>
    intro tasks h
    rw [List.foldl_cons]
    exact ih _ (held_assignPendingToTeam tasks team t h)

theorem noPending_foldl_assignPendingToTeam (teams : List String) :
    ∀ (tasks : List Task), (∀ Q ∈ tasks, Q.status ≠ .pending) →
      ∀ Q ∈ teams.foldl assignPendingToTeam tasks, Q.status ≠ .pending := by
  induction teams with
  | nil => intro tasks h; exact h
  | cons team rest ih =>
    intro tasks h
    rw [List.foldl_cons]
    exact ih _ (noPending_assignPendingToTeam tasks team h)

theorem foldl_assignPendingToTeam_served (teams : List String) :
    ∀ (tasks : List Task), ∀ t ∈ teams,
      (∃ holder ∈ teams.foldl assignPendingToTeam tasks,
          holder.status = .in_progress ∧ holder.assignedTeam = .str t) ∨
        ∀ Q ∈ teams.foldl assignPendingToTeam tasks, Q.status ≠ .pending := by
  induction teams with
  | nil => intro tasks t ht; simp at ht
  | cons team rest ih =>
    intro tasks t ht
    rw [List.foldl_cons]
    rcases List.mem_cons.mp ht with h | h
    · subst h
      rcases assignPendingToTeam_served tasks t with hheld | hnone
      · exact Or.inl (held_foldl_assignPendingToTeam rest t _ hheld)
      · exact Or.inr (noPending_foldl_assignPendingToTeam rest _ hnone)
    · exact ih _ t h

theorem workConserving_assignPending (tasks : List Task) :
    WorkConserving (assignPendingTasksToAvailableTeams tasks) := by
  intro hwait team hteam
  rcases foldl_assignPendingToTeam_served TEAMS tasks team hteam with hheld | hnone
  · exact hheld
  · obtain ⟨Q, hQ, hs⟩ := hwait
    exact absurd hs (hnone Q hQ)

theorem workConserving_markTaskAsCompleted (tasks : List Task) (now : String)
    (taskId : JsVal) (h : WorkConserving tasks) :
    WorkConserving (markTaskAsCompleted tasks now taskId) := by
  unfold markTaskAsCompleted
  split
  · exact h
  · split
    · exact h
    · exact workConserving_assignPending _

theorem getAvailableTeamFrom_null_held (tasks : List Task) (teams : List String)
    (h : getAvailableTeamFrom tasks teams = .null) :
    ∀ team ∈ teams, ∃ holder ∈ tasks,
      holder.status = .in_progress ∧ holder.assignedTeam = .str team := by
  induction teams with
  | nil => intro team ht; simp at ht
  | cons head rest ih =>
    simp only [getAvailableTeamFrom] at h
    split at h
    · cases h
    · rename_i hbusy
      intro team ht
      rcases List.mem_cons.mp ht with hh | hh
      · subst hh
        apply (isTeamAvailable_eq_false_iff tasks team).mp
        simpa [isTeamAvailable] using hbusy
      · exact ih h team hh

theorem workConserving_createTask (tasks : List Task) (newId now title source : String)
    (h : WorkConserving tasks) : WorkConserving (createTask tasks newId now title source) := by
  intro hwait team hteam
  have hold : (∀ team ∈ TEAMS, ∃ holder ∈ tasks,
      holder.status = .in_progress ∧ holder.assignedTeam = .str team) →
      ∃ holder ∈ createTask tasks newId now title source,
        holder.status = .in_progress ∧ holder.assignedTeam = .str team := by
    intro hall
    obtain ⟨holder, hmem, hheld⟩ := hall team hteam
    exact ⟨holder, List.mem_cons_of_mem _ hmem, hheld⟩
  obtain ⟨waiting, hmem, hpending⟩ := hwait
  rcases List.mem_cons.mp hmem with hnew | hin
  · -- the new task is the one waiting: `getAvailableTeam` found no team
    apply hold
    rcases getAvailableTeamFrom_cases tasks TEAMS with hnull | ⟨t, ht, hstr⟩
    · exact getAvailableTeamFrom_null_held tasks TEAMS hnull
    · subst hnew
      simp [assignTeamIfAvailable, getAvailableTeam, hstr, teams_truthy t ht] at hpending
  · exact hold (h ⟨waiting, hin, hpending⟩)

theorem workConserving_foldl_step (steps : List Step) :
    ∀ (tasks : List Task), WorkConserving tasks → WorkConserving (steps.foldl step tasks) := by
  induction steps with
  | nil => intro tasks h; exact h
  | cons s rest ih =>
    intro tasks h
    rw [List.foldl_cons]
    apply ih
    cases s with
    | create newId now title source =>
      exact workConserving_createTask tasks newId now title source h
    | complete now taskId => exact workConserving_markTaskAsCompleted tasks now taskId h

/-- C11: in every task list reachable from the empty list by a sequence of `createTask` and
`markTaskAsCompleted` calls, if some task is pending then every team of `TEAMS` is held by
an `in_progress` task: no task waits while a team is idle. -/
theorem work_conservation (steps : List Step) (waiting : Task)
    (hmem : waiting ∈ run [] steps) (hpending : waiting.status = .pending)
    (team : String) (hteam : team ∈ TEAMS) :
    ∃ holder ∈ run [] steps,
      holder.status = .in_progress ∧ holder.assignedTeam = .str team :=
  workConserving_foldl_step steps [] (fun hwait => by simp at hwait)
    ⟨waiting, hmem, hpending⟩ team hteam

/-- Witness of C11: after T1..T4, T4 is pending and Equipo B is held (by T2). -/
theorem work_conservation_witness :
    ∃ holder ∈ run [] scenarioSteps,
      holder.status = .in_progress ∧ holder.assignedTeam = .str "Equipo B" :=
  work_conservation scenarioSteps (mkTask "4" .pending .null) (by decide) (by decide)
    "Equipo B" (by decide)

end SmartOps
